import Mathlib

/-!
# Verification of the `whobreaks` text-to-graph pipeline

Shallow embedding of the core of the `whobreaks` repository:

* `src/analyzer.ts` — the comment/string scanner (`stripComments`), the
  regex-based import/export extraction (`parseImports`, `parseExports`);
* `graph.ts` — the graph store (`addNode`, `removeNode`, `removeNodeEdges`)
  and the graph algorithms (`getImpact`, `detectCircularDependencies`);
* `server.ts` — the not-found guard of the `/impact` HTTP route.

JS strings are modelled as `List Char`; JS `Map` as an insertion-ordered
association list; JS `Set` as an insertion-ordered duplicate-free list.
Wall-clock fields (`lastUpdate`, `lastModified`) are omitted: no property
below concerns them.
-/

namespace Whobreaks

/-! ## Scanner: `stripComments` (analyzer.ts:158-209)

The source is a single left-to-right index loop with inner loops for the
four lexical modes; each inner loop becomes a helper on the remaining
character list.  The source branches on character codes
(`47 = '/'`, `42 = '*'`, `96 = backtick`, `34 = '"'`, `39 = '\''`,
`92 = backslash`, `10 = newline`); the helpers branch on the same
characters.
-/

/-- Number of newline characters in a character list. -/
def countNl (l : List Char) : Nat := l.count '\n'

/-- Inner loop for `/*` (analyzer.ts:172-176): consume up to and including
the first `*/`; if it never closes, everything is consumed. -/
def dropBlock : List Char → List Char
  | [] => []
  | c :: rest =>
    if c = '*' ∧ rest.head? = some '/' then rest.tail
    else dropBlock rest

/-- Inner loop for a template literal (analyzer.ts:183-189): consume up to
and including the closing backtick; a backslash consumes the following
character as well. -/
def dropTemplate : List Char → List Char
  | [] => []
  | c :: rest =>
    if c = '\x60' then rest
    else if c = '\\' then dropTemplate rest.tail
    else dropTemplate rest
termination_by l => l.length
decreasing_by
  · simp only [List.length_cons]
    have := List.length_tail rest
    omega
  · simp

/-- Inner loop for a quoted string (analyzer.ts:195-202): every character of
the body is copied to the output verbatim, up to and including the closing
quote; a backslash copies itself and the following character (when any).
Returns the copied characters and the rest of the input. -/
def copyString (q : Char) : List Char → List Char × List Char
  | [] => ([], [])
  | c :: rest =>
    if c = q then ([c], rest)
    else if c = '\\' then
      let p := copyString q rest.tail
      (c :: (rest.take 1 ++ p.1), p.2)
    else
      let p := copyString q rest
      (c :: p.1, p.2)
termination_by l => l.length
decreasing_by
  · simp only [List.length_cons]
    have := List.length_tail rest
    omega
  · simp

theorem dropBlock_suffix : ∀ l : List Char, dropBlock l <:+ l := by
  intro l
  induction l with
  | nil => exact List.suffix_rfl
  | cons c rest ih =>
    rw [dropBlock]
    split
    · exact (List.tail_suffix rest).trans (List.suffix_cons c rest)
    · exact ih.trans (List.suffix_cons c rest)

theorem dropTemplate_suffix : ∀ l : List Char, dropTemplate l <:+ l := by
  intro l
  induction l using dropTemplate.induct with
  | case1 => rw [dropTemplate]
  | case2 rest =>
    rw [dropTemplate, if_pos rfl]
    exact List.suffix_cons '\x60' rest
  | case3 rest h ih =>
    rw [dropTemplate, if_neg h, if_pos rfl]
    exact (ih.trans (List.tail_suffix rest)).trans (List.suffix_cons '\\' rest)
  | case4 c rest h h2 ih =>
    rw [dropTemplate, if_neg h, if_neg h2]
    exact ih.trans (List.suffix_cons c rest)

theorem copyString_append (q : Char) :
    ∀ l : List Char, (copyString q l).1 ++ (copyString q l).2 = l := by
  intro l
  induction l using copyString.induct q with
  | case1 => simp [copyString]
  | case2 rest =>
    rw [copyString, if_pos rfl]
    simp
  | case3 rest h ih =>
    rw [copyString, if_neg h, if_pos rfl]
    simp only [List.cons_append, List.append_assoc, ih]
    rw [← List.drop_one, List.take_append_drop]
  | case4 c rest h h2 ih =>
    rw [copyString, if_neg h, if_neg h2]
    simpa using ih

theorem copyString_snd_suffix (q : Char) (l : List Char) :
    (copyString q l).2 <:+ l :=
  ⟨(copyString q l).1, copyString_append q l⟩

/-- The comment/string scanner (analyzer.ts:158-209).  Line comments are
consumed with no output (the terminating newline is not consumed), block
comments and template literals each produce a single space, quoted strings
are copied verbatim, everything else is copied. -/
def stripComments : List Char → List Char
  | [] => []
  | c :: rest =>
    if c = '/' then
      if rest.head? = some '/' then stripComments (rest.tail.dropWhile (· ≠ '\n'))
      else if rest.head? = some '*' then ' ' :: stripComments (dropBlock rest.tail)
      else c :: stripComments rest
    else if c = '\x60' then ' ' :: stripComments (dropTemplate rest)
    else if c = '"' ∨ c = '\'' then
      let p := copyString c rest
      c :: (p.1 ++ stripComments p.2)
    else c :: stripComments rest
termination_by l => l.length
decreasing_by
  · simp only [List.length_cons]
    have h1 : (rest.tail.dropWhile (· ≠ '\n')).length ≤ rest.tail.length :=
      (List.dropWhile_suffix _).length_le
    have h2 := List.length_tail rest
    omega
  · simp only [List.length_cons]
    have h1 : (dropBlock rest.tail).length ≤ rest.tail.length :=
      (dropBlock_suffix _).length_le
    have h2 := List.length_tail rest
    omega
  · simp
  · simp only [List.length_cons]
    have h1 : (dropTemplate rest).length ≤ rest.length :=
      (dropTemplate_suffix _).length_le
    omega
  · simp only [List.length_cons]
    have h1 : (copyString c rest).2.length ≤ rest.length :=
      (copyString_snd_suffix c rest).length_le
    omega
  · simp

theorem countNl_dropWhile_ne_nl (l : List Char) :
    countNl (l.dropWhile (fun x => decide (x ≠ '\n'))) = countNl l := by
  induction l with
  | nil => rfl
  | cons c rest ih =>
    by_cases hc : c = '\n'
    · subst hc
      simp [List.dropWhile]
    · rw [List.dropWhile_cons_of_pos (by simpa using hc)]
      rw [ih, countNl, countNl, List.count_cons]
      simp [hc]

theorem countNl_append (a b : List Char) :
    countNl (a ++ b) = countNl a + countNl b := by
  simp [countNl, List.count_append]

theorem countNl_cons (c : Char) (l : List Char) :
    countNl (c :: l) = countNl l + (if c = '\n' then 1 else 0) := by
  simp [countNl, List.count_cons]

/-- C10: on text containing none of `/`, `"`, `'`, `` ` ``, the scanner only
ever takes the copy-through branch, so it is the identity. -/
theorem claimC10 (l : List Char)
    (h1 : '/' ∉ l) (h2 : '"' ∉ l) (h3 : '\'' ∉ l) (h4 : '\x60' ∉ l) :
    stripComments l = l := by
  induction l with
  | nil => rw [stripComments]
  | cons c rest ih =>
    simp only [List.mem_cons, not_or] at h1 h2 h3 h4
    rw [stripComments, if_neg (fun hc => h1.1 hc.symm), if_neg (fun hc => h4.1 hc.symm),
      if_neg (fun hc => hc.elim (fun h => h2.1 h.symm) (fun h => h3.1 h.symm)),
      ih h1.2 h2.2 h3.2 h4.2]

/-- Witness for C10 at the concrete benign input `let x = 1␊return x`. -/
theorem claimC10_witness :
    stripComments "let x = 1\nreturn x".toList = "let x = 1\nreturn x".toList :=
  claimC10 _ (by decide) (by decide) (by decide) (by decide)

/-- C2 counterexample: the five-character input `/*␊*/` (a block comment
spanning two lines) strips to the single character `' '`: the output has
length 1 (input: 5) and zero newlines (input: 1), so neither the length nor
the line structure of the input is preserved. -/
theorem claimC2_counterexample :
    (stripComments ['/', '*', '\n', '*', '/']).length ≠
        (['/', '*', '\n', '*', '/'] : List Char).length ∧
      countNl (stripComments ['/', '*', '\n', '*', '/']) ≠
        countNl ['/', '*', '\n', '*', '/'] := by
  have h : stripComments ['/', '*', '\n', '*', '/'] = [' '] := by
    simp [stripComments, dropBlock]
  rw [h]
  refine ⟨by simp, ?_⟩
  simp [countNl]

/-- C2 (amended): `stripComments` preserves the newline count of every input
that contains no backtick and no `/*` substring, i.e. of every input without
block comments and template literals (line comments drop their text but keep
the terminating newline; quoted strings are copied verbatim).  Length and
newline count are not preserved in general (see the counterexample). -/
theorem claimC2 (l : List Char)
    (hb : '\x60' ∉ l) (hc : ¬ (['/', '*'] <:+: l)) :
    countNl (stripComments l) = countNl l := by
  induction l using stripComments.induct with
  | case1 => rw [stripComments]
  | case2 rest hh ih =>
    rw [stripComments, if_pos rfl, if_pos hh]
    have hb' : '\x60' ∉ List.dropWhile (fun x => decide (x ≠ '\n')) rest.tail := fun hm =>
      hb (List.mem_cons_of_mem _
        ((List.tail_suffix rest).subset ((List.dropWhile_suffix _).subset hm)))
    have hc' : ¬ (['/', '*'] <:+: List.dropWhile (fun x => decide (x ≠ '\n')) rest.tail) :=
      fun hi => hc (List.infix_cons
        (hi.trans (((List.dropWhile_suffix _).trans (List.tail_suffix rest)).isInfix)))
    rw [ih hb' hc', countNl_dropWhile_ne_nl]
    cases rest with
    | nil => rfl
    | cons r rs =>
      simp only [List.head?_cons, Option.some.injEq] at hh
      subst hh
      simp [countNl_cons, List.tail]
  | case3 rest hh hh2 ih =>
    exfalso
    apply hc
    cases rest with
    | nil => simp at hh2
    | cons r rs =>
      simp only [List.head?_cons, Option.some.injEq] at hh2
      subst hh2
      exact ⟨[], rs, rfl⟩
  | case4 rest hh hh2 ih =>
    rw [stripComments, if_pos rfl, if_neg hh, if_neg hh2]
    have hb' : '\x60' ∉ rest := fun hm => hb (List.mem_cons_of_mem _ hm)
    have hc' : ¬ (['/', '*'] <:+: rest) := fun hi => hc (List.infix_cons hi)
    rw [countNl_cons, countNl_cons, ih hb' hc']
  | case5 rest hne ih =>
    exfalso
    exact hb (List.mem_cons_self _ _)
  | case6 c rest hc1 hc2 hq p ih =>
    rw [stripComments, if_neg hc1, if_neg hc2, if_pos hq]
    show countNl (c :: ((copyString c rest).1 ++ stripComments (copyString c rest).2))
        = countNl (c :: rest)
    have hsub : (copyString c rest).2 <:+ rest := copyString_snd_suffix c rest
    have hb' : '\x60' ∉ (copyString c rest).2 := fun hm =>
      hb (List.mem_cons_of_mem _ (hsub.subset hm))
    have hc' : ¬ (['/', '*'] <:+: (copyString c rest).2) :=
      fun hi => hc (List.infix_cons (hi.trans hsub.isInfix))
    have ih' : countNl (stripComments (copyString c rest).2)
        = countNl (copyString c rest).2 := ih hb' hc'
    have hkey : countNl (copyString c rest).1 + countNl (copyString c rest).2
        = countNl rest := by
      rw [← countNl_append, copyString_append]
    rw [countNl_cons, countNl_cons, countNl_append, ih']
    omega
  | case7 c rest hc1 hc2 hq ih =>
    rw [stripComments, if_neg hc1, if_neg hc2, if_neg hq]
    have hb' : '\x60' ∉ rest := fun hm => hb (List.mem_cons_of_mem _ hm)
    have hc' : ¬ (['/', '*'] <:+: rest) := fun hi => hc (List.infix_cons hi)
    rw [countNl_cons, countNl_cons, ih hb' hc']

/-- Witness for C2 at a concrete input with a line comment and a multi-line
single-quoted string (newline count 2 on both sides). -/
theorem claimC2_witness :
    countNl (stripComments "a//b\n'x\ny'".toList) = countNl "a//b\n'x\ny'".toList :=
  claimC2 _ (by decide) (by decide)

/-- C3 counterexample: the input `"ab"` (a double-quoted string) strips to
itself: the body characters `a`, `b` appear verbatim in the output and the
delimiters are kept as quotes, not spaces, refuting the claim that string
bodies are blanked. -/
theorem claimC3_counterexample :
    stripComments ['"', 'a', 'b', '"'] = ['"', 'a', 'b', '"'] ∧
      'a' ∈ stripComments ['"', 'a', 'b', '"'] := by
  have h : stripComments ['"', 'a', 'b', '"'] = ['"', 'a', 'b', '"'] := by
    simp [stripComments, copyString]
  exact ⟨h, by rw [h]; simp⟩

/-- C3 (amended): only template-literal bodies are removed by the scanner
(the whole template, delimiters included, collapses to one space), while
single- and double-quoted string literals are copied through verbatim,
delimiters and body alike. -/
theorem claimC3 :
    (∀ (body rest : List Char), '\x60' ∉ body → '\\' ∉ body →
      stripComments ('\x60' :: (body ++ '\x60' :: rest)) = ' ' :: stripComments rest) ∧
    (∀ (q : Char) (body rest : List Char), q = '"' ∨ q = '\'' → q ∉ body → '\\' ∉ body →
      stripComments (q :: (body ++ q :: rest)) = q :: (body ++ q :: stripComments rest)) := by
  constructor
  · intro body rest h1 h2
    have hclose : dropTemplate (body ++ '\x60' :: rest) = rest := by
      induction body with
      | nil => rw [List.nil_append, dropTemplate, if_pos rfl]
      | cons c body' ih =>
        simp only [List.mem_cons, not_or] at h1 h2
        rw [List.cons_append, dropTemplate, if_neg (fun h => h1.1 h.symm),
          if_neg (fun h => h2.1 h.symm)]
        exact ih h1.2 h2.2
    rw [stripComments, if_neg (by decide), if_pos rfl, hclose]
  · intro q body rest hq h1 h2
    have hclose : copyString q (body ++ q :: rest) = (body ++ [q], rest) := by
      induction body with
      | nil => rw [List.nil_append, copyString, if_pos rfl]; rfl
      | cons c body' ih =>
        simp only [List.mem_cons, not_or] at h1 h2
        rw [List.cons_append, copyString, if_neg (fun h => h1.1 h.symm),
          if_neg (fun h => h2.1 h.symm), ih h1.2 h2.2]
        simp
    have hq1 : ¬ q = '/' := by rcases hq with h | h <;> subst h <;> decide
    have hq2 : ¬ q = '\x60' := by rcases hq with h | h <;> subst h <;> decide
    rw [stripComments, if_neg hq1, if_neg hq2, if_pos hq, hclose]
    simp

/-- Witness for C3: a concrete template ` `ab` ` collapses to one space and a
concrete string `"b"` is copied verbatim. -/
theorem claimC3_witness :
    stripComments ('\x60' :: (['a', 'b'] ++ '\x60' :: ['x'])) = ' ' :: stripComments ['x'] ∧
      stripComments ('"' :: (['b'] ++ '"' :: ['y'])) = '"' :: (['b'] ++ '"' :: stripComments ['y']) :=
  ⟨claimC3.1 ['a', 'b'] ['x'] (by decide) (by decide),
   claimC3.2 '"' ['b'] ['y'] (Or.inl rfl) (by decide) (by decide)⟩

/-! ## Regex engine

The extraction passes of analyzer.ts run JS regexes with the `g` (and mostly
`m`) flags over the stripped text.  The constructs those regexes use are
modelled by a small backtracking engine with JS semantics for exactly those
features: ordered (leftmost) alternation, greedy `?`, greedy `*`/`+` over
single character classes (the only starred subterms in the source regexes),
literals, capture groups, the multiline `^` assertion and the `\b` word
boundary.  `\s` and `\w` are modelled on ASCII (the repository's source
text); `$` inside `[\w$]` is the literal dollar character.
-/

/-- JS `\s` on ASCII: space, tab, newline, carriage return, vertical tab,
form feed. -/
def jsWs (c : Char) : Bool :=
  c == ' ' || c == '\t' || c == '\n' || c == '\r' || c == '\x0b' || c == '\x0c'

/-- JS `\w`: ASCII letters, digits, underscore. -/
def wordCh (c : Char) : Bool := c.isAlphanum || c == '_'

/-- The class `[\w$]`. -/
def wordDollar (c : Char) : Bool := wordCh c || c == '$'

/-- The class `['"]`. -/
def isQuote (c : Char) : Bool := c == '\'' || c == '"'

/-- The class `[^'"]`. -/
def notQuote (c : Char) : Bool := !(isQuote c)

/-- The class `[^}]`. -/
def notBrace (c : Char) : Bool := c != '\x7d'

/-- The class `[;}]` from the `(?:^|;|\})` prefix alternation. -/
def sepSemiBrace (c : Char) : Bool := c == ';' || c == '\x7d'

/-- Regular expression syntax (only the constructs the source regexes use). -/
inductive RE where
  | emp : RE
  | bol : RE
  | wb : RE
  | cls (p : Char → Bool) : RE
  | lit (s : List Char) : RE
  | seq (a b : RE) : RE
  | alt (a b : RE) : RE
  | opt (a : RE) : RE
  | starCls (p : Char → Bool) : RE
  | grp (i : Nat) (a : RE) : RE

/-- Capture list: group index paired with the captured characters, most
recent first (every group of the source regexes is bound at most once per
match). -/
abbrev Caps := List (Nat × List Char)

/-- Greedy `p+` is one mandatory class character followed by greedy `p*`. -/
def plusCls (p : Char → Bool) : RE := .seq (.cls p) (.starCls p)

/-- Concatenation of a list of regexes. -/
def reCat (rs : List RE) : RE := rs.foldr .seq .emp

/-- Whether position `i` of `s` holds a `\w` character (false out of range). -/
def isWordAt (s : List Char) (i : Nat) : Bool :=
  match s.get? i with
  | some c => wordCh c
  | none => false

/-- Length of the maximal run of class-`p` characters starting at `pos`. -/
def countRun (s : List Char) (p : Char → Bool) (pos : Nat) : Nat :=
  ((s.drop pos).takeWhile p).length

/-- Greedy star over a character class: try the continuation after consuming
`n` characters, then `n-1`, ... down to `0` (longest first — JS greedy with
backtracking). -/
def starTry (pos : Nat) (caps : Caps) (k : Nat → Caps → Option (Nat × Caps)) :
    Nat → Option (Nat × Caps)
  | 0 => k pos caps
  | n + 1 =>
    match k (pos + (n + 1)) caps with
    | some r => some r
    | none => starTry pos caps k n

/-- CPS backtracking matcher: try to match `re` at position `pos` of `s`,
calling the continuation with the end position and captures. -/
def matchRe (s : List Char) : RE → Nat → Caps →
    (Nat → Caps → Option (Nat × Caps)) → Option (Nat × Caps)
  | .emp, pos, caps, k => k pos caps
  | .bol, pos, caps, k =>
    if pos = 0 then k pos caps
    else if s.get? (pos - 1) = some '\n' then k pos caps
    else none
  | .wb, pos, caps, k =>
    let prev := if pos = 0 then false else isWordAt s (pos - 1)
    if prev != isWordAt s pos then k pos caps else none
  | .cls p, pos, caps, k =>
    match s.get? pos with
    | some c => if p c then k (pos + 1) caps else none
    | none => none
  | .lit t, pos, caps, k =>
    if t.isPrefixOf (s.drop pos) then k (pos + t.length) caps else none
  | .seq a b, pos, caps, k => matchRe s a pos caps (fun p2 c2 => matchRe s b p2 c2 k)
  | .alt a b, pos, caps, k =>
    match matchRe s a pos caps k with
    | some r => some r
    | none => matchRe s b pos caps k
  | .opt a, pos, caps, k =>
    match matchRe s a pos caps k with
    | some r => some r
    | none => k pos caps
  | .starCls p, pos, caps, k => starTry pos caps k (countRun s p pos)
  | .grp i a, pos, caps, k =>
    matchRe s a pos caps (fun p2 c2 => k p2 ((i, (s.drop pos).take (p2 - pos)) :: c2))

/-- Anchored match attempt at a single position. -/
def matchAt (s : List Char) (re : RE) (pos : Nat) : Option (Nat × Caps) :=
  matchRe s re pos [] (fun p c => some (p, c))

/-- One regex match: start and end offsets plus captures. -/
structure MatchRes where
  start : Nat
  stop : Nat
  caps : Caps
deriving DecidableEq

/-- The `g`-flag exec loop: find the leftmost match starting at or after the
current position, record it, continue from its end (advancing by one on an
empty match, as JS does).  Fueled: the position strictly increases each
step, so `s.length + 2` fuel always suffices. -/
def execFrom (s : List Char) (re : RE) : Nat → Nat → List MatchRes
  | 0, _ => []
  | fuel + 1, pos =>
    if pos > s.length then []
    else
      match matchAt s re pos with
      | some pc =>
        let next := if pc.1 ≤ pos then pos + 1 else pc.1
        ⟨pos, pc.1, pc.2⟩ :: execFrom s re fuel next
      | none => execFrom s re fuel (pos + 1)

/-- All matches of `re` over `s`, in order. -/
def execAll (s : List Char) (re : RE) : List MatchRes :=
  execFrom s re (s.length + 2) 0

/-- First capture list entry for a group index. -/
def capOpt (caps : Caps) (i : Nat) : Option (List Char) := caps.lookup i

/-! ## The analyzer regexes (analyzer.ts:211-225), transcribed construct by
construct -/

/-- Models STATIC_IMPORT_RE (analyzer.ts:211-212):
`(?:^|;|\})\s*import\s+(?:type\s+)?(?:([\w$]+)(?:\s*,\s*)?)?(?:\*\s+as\s+([\w$]+))?(?:\{([^}]*)\})?\s*from\s+['"]([^'"]+)['"]`
with flags `gm`. -/
def staticImportRE : RE := reCat [
  .alt .bol (.cls sepSemiBrace),
  .starCls jsWs, .lit "import".toList, plusCls jsWs,
  .opt (reCat [.lit "type".toList, plusCls jsWs]),
  .opt (reCat [.grp 1 (plusCls wordDollar),
    .opt (reCat [.starCls jsWs, .lit [','], .starCls jsWs])]),
  .opt (reCat [.lit ['*'], plusCls jsWs, .lit "as".toList, plusCls jsWs,
    .grp 2 (plusCls wordDollar)]),
  .opt (reCat [.lit ['\x7b'], .grp 3 (.starCls notBrace), .lit ['\x7d']]),
  .starCls jsWs, .lit "from".toList, plusCls jsWs,
  .cls isQuote, .grp 4 (plusCls notQuote), .cls isQuote]

/-- Models SIDE_EFFECT_IMPORT_RE (analyzer.ts:214):
`(?:^|;|\})\s*import\s+['"]([^'"]+)['"]` with flags `gm`. -/
def sideEffectImportRE : RE := reCat [
  .alt .bol (.cls sepSemiBrace),
  .starCls jsWs, .lit "import".toList, plusCls jsWs,
  .cls isQuote, .grp 1 (plusCls notQuote), .cls isQuote]

/-- Models DYNAMIC_IMPORT_RE (analyzer.ts:216):
`\bimport\s*\(\s*['"]([^'"]+)['"]\s*\)` with flag `g`. -/
def dynamicImportRE : RE := reCat [
  .wb, .lit "import".toList, .starCls jsWs, .lit ['('], .starCls jsWs,
  .cls isQuote, .grp 1 (plusCls notQuote), .cls isQuote, .starCls jsWs, .lit [')']]

/-- Models EXPORT_FROM_RE (analyzer.ts:221-222):
`^\s*export\s+(?:type\s+)?\{([^}]*)\}\s+from\s+['"]([^'"]+)['"]` with `gm`. -/
def exportFromRE : RE := reCat [
  .bol, .starCls jsWs, .lit "export".toList, plusCls jsWs,
  .opt (reCat [.lit "type".toList, plusCls jsWs]),
  .lit ['\x7b'], .grp 1 (.starCls notBrace), .lit ['\x7d'], plusCls jsWs,
  .lit "from".toList, plusCls jsWs,
  .cls isQuote, .grp 2 (plusCls notQuote), .cls isQuote]

/-- Models EXPORT_STAR_RE (analyzer.ts:224-225):
`^\s*export\s+\*\s+(?:as\s+[\w$]+\s+)?from\s+['"]([^'"]+)['"]` with `gm`. -/
def exportStarRE : RE := reCat [
  .bol, .starCls jsWs, .lit "export".toList, plusCls jsWs,
  .lit ['*'], plusCls jsWs,
  .opt (reCat [.lit "as".toList, plusCls jsWs, plusCls wordDollar, plusCls jsWs]),
  .lit "from".toList, plusCls jsWs,
  .cls isQuote, .grp 1 (plusCls notQuote), .cls isQuote]

/-- The keyword alternation of EXPORT_NAMED_RE, alternatives in source
order: `function\*?|class|interface|type|enum|const|let|var|abstract\s+class|declare\s+\w+\s+`. -/
def keywordAlt : RE :=
  .alt (reCat [.lit "function".toList, .opt (.lit ['*'])])
  (.alt (.lit "class".toList)
  (.alt (.lit "interface".toList)
  (.alt (.lit "type".toList)
  (.alt (.lit "enum".toList)
  (.alt (.lit "const".toList)
  (.alt (.lit "let".toList)
  (.alt (.lit "var".toList)
  (.alt (reCat [.lit "abstract".toList, plusCls jsWs, .lit "class".toList])
        (reCat [.lit "declare".toList, plusCls jsWs, plusCls wordCh, plusCls jsWs])))))))))

/-- The second alternative of group 4 of EXPORT_NAMED_RE:
`\*\s+as\s+[\w$]+\s+from\s+['"][^'"]+['"]`. -/
def starAsFrom : RE := reCat [
  .lit ['*'], plusCls jsWs, .lit "as".toList, plusCls jsWs,
  plusCls wordDollar, plusCls jsWs, .lit "from".toList, plusCls jsWs,
  .cls isQuote, plusCls notQuote, .cls isQuote]

/-- Models EXPORT_NAMED_RE (analyzer.ts:218-219):
`^\s*export\s+(?:(type)\s+)?(?:(default)\s+)?(function\*?|class|interface|type|enum|const|let|var|abstract\s+class|declare\s+\w+\s+)?\s*(\*\s+as\s+[\w$]+\s+from\s+['"][^'"]+['"]|[\w$]+)?`
with `gm`. -/
def exportNamedRE : RE := reCat [
  .bol, .starCls jsWs, .lit "export".toList, plusCls jsWs,
  .opt (reCat [.grp 1 (.lit "type".toList), plusCls jsWs]),
  .opt (reCat [.grp 2 (.lit "default".toList), plusCls jsWs]),
  .opt (.grp 3 keywordAlt),
  .starCls jsWs,
  .opt (.grp 4 (.alt starAsFrom (plusCls wordDollar)))]

/-! ## Import/export extraction (analyzer.ts:240-359) -/

/-- Import edge (types.ts). -/
structure ImportEdge where
  source : String
  target : String
  rawSpecifier : String
  symbols : List String
  isTypeOnly : Bool
  isDynamic : Bool
  line : Nat
deriving DecidableEq

/-- Export record (types.ts); `kind` is one of the ExportKind strings. -/
structure ExportInfo where
  name : String
  kind : String
  line : Nat
  isReExport : Bool
  reExportSource : Option String
deriving DecidableEq

/-- Models lineAt (analyzer.ts:240-246): one plus the number of newlines in
the first `idx` characters. -/
def lineAt (src : List Char) (idx : Nat) : Nat := 1 + countNl (src.take idx)

/-- The class `\S`. -/
def notWs (c : Char) : Bool := !(jsWs c)

/-- JS `String.trim`. -/
def trimChars (l : List Char) : List Char :=
  ((l.dropWhile jsWs).reverse.dropWhile jsWs).reverse

/-- JS non-global `String.replace`: replace the first match of `re` (if any)
by `repl` applied to its captures. -/
def replaceFirst (s : List Char) (re : RE) (repl : Caps → List Char) : List Char :=
  match (execAll s re).head? with
  | none => s
  | some m => s.take m.start ++ repl m.caps ++ s.drop m.stop

/-- The rename-erasing pattern of the named-import list: `\s+as\s+\S+`. -/
def asClauseRE : RE := reCat [plusCls jsWs, .lit "as".toList, plusCls jsWs, plusCls notWs]

/-- The rename-resolving pattern of the re-export list: `\s+as\s+(\S+)`. -/
def asClauseCapRE : RE :=
  reCat [plusCls jsWs, .lit "as".toList, plusCls jsWs, .grp 1 (plusCls notWs)]

/-- Models the named-import list processing (analyzer.ts:267-269):
`namedRaw.split(',').map(s => s.trim().replace(/\s+as\s+\S+/, '').trim()).filter(Boolean)`. -/
def importNamedSymbols (raw : List Char) : List String :=
  (((raw.splitOn ',').map (fun s =>
    trimChars (replaceFirst (trimChars s) asClauseRE (fun _ => [])))).filter
      (fun l => l ≠ [])).map (fun l => String.mk l)

/-- Models the re-export list processing (analyzer.ts:328):
`m[1].split(',').map(s => s.trim().replace(/\s+as\s+(\S+)/, '$1').trim()).filter(Boolean)`. -/
def exportFromNames (raw : List Char) : List String :=
  (((raw.splitOn ',').map (fun s =>
    trimChars (replaceFirst (trimChars s) asClauseCapRE
      (fun caps => (capOpt caps 1).getD [])))).filter
      (fun l => l ≠ [])).map (fun l => String.mk l)

/-- JS slice with non-negative bounds: the characters of `[a, b)`. -/
def jsSlice (l : List Char) (a b : Nat) : List Char := (l.take b).drop a

/-- Models the anchored test `/^\s*import\s+type\s+/.test(...)`
(analyzer.ts:271).  This anchored pattern is deterministic (no `\s`
character can begin `import` or `type`, so maximal munch is exact) and is
modelled by direct scanning. -/
def importTypeTest (l : List Char) : Bool :=
  let l1 := l.dropWhile jsWs
  "import".toList.isPrefixOf l1 &&
    (let l2 := l1.drop 6
     match l2.head? with
     | some c =>
       jsWs c &&
         (let l3 := l2.dropWhile jsWs
          "type".toList.isPrefixOf l3 &&
            (match (l3.drop 4).head? with
             | some d => jsWs d
             | none => false))
     | none => false)

/-- Models the isTypeOnly computation (analyzer.ts:271):
`/^\s*import\s+type\s+/.test(stripped.slice(Math.max(0, m.index - 1), m.index + 20))`. -/
def isTypeOnlyAt (stripped : List Char) (idx : Nat) : Bool :=
  importTypeTest (jsSlice stripped (idx - 1) (idx + 20))

/-- One static-import edge from one STATIC_IMPORT_RE match
(analyzer.ts:260-288).  `resolve` abstracts
`resolveTarget(·, sourceDir, aliases, knownFiles)`: the claims below hold
for every resolver. -/
def mkStaticEdge (src stripped : List Char) (sourcePath : String)
    (resolve : String → String) (m : MatchRes) : Option ImportEdge :=
  match capOpt m.caps 4 with
  | none => none
  | some spec =>
    if spec = [] then none
    else some {
      source := sourcePath
      target := resolve (String.mk spec)
      rawSpecifier := String.mk spec
      symbols :=
        (match capOpt m.caps 1 with
         | some d => if d = [] then [] else [String.mk d]
         | none => []) ++
        (match capOpt m.caps 2 with
         | some n => if n = [] then [] else [String.mk n]
         | none => []) ++
        importNamedSymbols ((capOpt m.caps 3).getD [])
      isTypeOnly := isTypeOnlyAt stripped m.start
      isDynamic := false
      line := lineAt src m.start }

/-- Models parseImports (analyzer.ts:248-319): the static, side-effect and
dynamic passes, in source order. -/
def parseImports (src stripped : List Char) (sourcePath : String)
    (resolve : String → String) : List ImportEdge :=
  ((execAll stripped staticImportRE).filterMap (mkStaticEdge src stripped sourcePath resolve)) ++
  ((execAll stripped sideEffectImportRE).filterMap (fun m =>
    match capOpt m.caps 1 with
    | none => none
    | some spec => some {
        source := sourcePath
        target := resolve (String.mk spec)
        rawSpecifier := String.mk spec
        symbols := []
        isTypeOnly := false
        isDynamic := false
        line := lineAt src m.start })) ++
  ((execAll stripped dynamicImportRE).filterMap (fun m =>
    match capOpt m.caps 1 with
    | none => none
    | some spec => some {
        source := sourcePath
        target := resolve (String.mk spec)
        rawSpecifier := String.mk spec
        symbols := []
        isTypeOnly := false
        isDynamic := true
        line := lineAt src m.start }))

/-- Models syntaxKindFromKeyword (analyzer.ts:227-238). -/
def syntaxKindFromKeyword (kw : Option (List Char)) : String :=
  match kw with
  | none => "unknown"
  | some k0 =>
    let k := trimChars k0
    if "function".toList.isPrefixOf k then "function"
    else if "class".toList.isPrefixOf k || "abstract".toList.isPrefixOf k then "class"
    else if k = "interface".toList then "interface"
    else if k = "type".toList then "type"
    else if k = "enum".toList then "enum"
    else if k = "const".toList || k = "let".toList || k = "var".toList then "variable"
    else "unknown"

/-- One EXPORT_FROM_RE match folded into the (exports, seen) state
(analyzer.ts:327-336): each name is recorded unless already seen. -/
def pushFromEntries (src : List Char) (st : List ExportInfo × List String)
    (m : MatchRes) : List ExportInfo × List String :=
  let names := exportFromNames ((capOpt m.caps 1).getD [])
  let source := String.mk ((capOpt m.caps 2).getD [])
  let line := lineAt src m.start
  names.foldl (fun st name =>
    if name ∈ st.2 then st
    else (st.1 ++ [⟨name, "unknown", line, true, some source⟩], st.2 ++ [name])) st

/-- One EXPORT_NAMED_RE match folded into the (exports, seen) state
(analyzer.ts:344-356). -/
def pushNamedEntry (src : List Char) (st : List ExportInfo × List String)
    (m : MatchRes) : List ExportInfo × List String :=
  match capOpt m.caps 4 with
  | none => st
  | some n4 =>
    if n4 = [] then st
    else if n4.head? = some '*' then st
    else
      let isDefault := (capOpt m.caps 2).isSome
      let name := if isDefault then "default" else String.mk n4
      if name ∈ st.2 then st
      else
        (st.1 ++ [⟨name,
            if isDefault then "unknown" else syntaxKindFromKeyword (capOpt m.caps 3),
            lineAt src m.start, false, none⟩],
          st.2 ++ [name])

/-- Models parseExports (analyzer.ts:321-359): the re-export pass and the
local-declaration pass share the `seen` set; the export-star pass pushes a
`"*"` record per match without consulting or extending `seen`. -/
def parseExports (src stripped : List Char) : List ExportInfo :=
  let st1 := (execAll stripped exportFromRE).foldl (pushFromEntries src) ([], [])
  let st2 := (execAll stripped exportStarRE).foldl (fun st m =>
    (st.1 ++ [⟨"*", "unknown", lineAt src m.start, true,
        some (String.mk ((capOpt m.caps 1).getD []))⟩], st.2)) st1
  let st3 := (execAll stripped exportNamedRE).foldl (pushNamedEntry src) st2
  st3.1

/-! ## C5: export-name deduplication -/

/-- The names of the recorded exports other than the literal `"*"`. -/
def nonStarNames (l : List ExportInfo) : List String :=
  (l.filter (fun e => e.name ≠ "*")).map (fun e => e.name)

/-- Invariant of the (exports, seen) state of parseExports: every non-star
recorded name is in `seen`, and the non-star names are pairwise distinct. -/
def SeenInv (st : List ExportInfo × List String) : Prop :=
  (∀ e ∈ st.1, e.name ≠ "*" → e.name ∈ st.2) ∧ (nonStarNames st.1).Nodup

theorem nonStarNames_append (l : List ExportInfo) (e : ExportInfo) :
    nonStarNames (l ++ [e]) =
      nonStarNames l ++ (if e.name ≠ "*" then [e.name] else []) := by
  simp only [nonStarNames, List.filter_append, List.map_append]
  split
  · next h => simp [List.filter, h]
  · next h => simp [List.filter, h]

theorem seenInv_push (st : List ExportInfo × List String) (e : ExportInfo)
    (hinv : SeenInv st) (hnot : e.name ∉ st.2) :
    SeenInv (st.1 ++ [e], st.2 ++ [e.name]) := by
  obtain ⟨h1, h2⟩ := hinv
  constructor
  · intro x hx hxs
    rcases List.mem_append.mp hx with hx | hx
    · exact List.mem_append.mpr (Or.inl (h1 x hx hxs))
    · simp only [List.mem_singleton] at hx
      subst hx
      exact List.mem_append.mpr (Or.inr (List.mem_singleton.mpr rfl))
  · rw [nonStarNames_append]
    split
    · next hne =>
      rw [List.nodup_append]
      refine ⟨h2, List.nodup_singleton _, ?_⟩
      intro a ha hb
      simp only [List.mem_singleton] at hb
      subst hb
      obtain ⟨x, hx, hxn⟩ := List.mem_map.mp ha
      have := h1 x (List.mem_filter.mp hx).1 (by simpa using (List.mem_filter.mp hx).2)
      rw [hxn] at this
      exact hnot this
    · simpa using h2

theorem seenInv_guarded_push (st : List ExportInfo × List String) (e : ExportInfo)
    (hinv : SeenInv st) :
    SeenInv (if e.name ∈ st.2 then st else (st.1 ++ [e], st.2 ++ [e.name])) := by
  split
  · exact hinv
  · next h => exact seenInv_push st e hinv h

theorem foldl_preserves {α β : Type} (P : α → Prop) (f : α → β → α)
    (h : ∀ a b, P a → P (f a b)) :
    ∀ (l : List β) (a : α), P a → P (List.foldl f a l) := by
  intro l
  induction l with
  | nil => intro a ha; exact ha
  | cons x xs ih => intro a ha; exact ih (f a x) (h a x ha)

theorem seenInv_pushFromEntries (src : List Char) (st : List ExportInfo × List String)
    (m : MatchRes) (hinv : SeenInv st) : SeenInv (pushFromEntries src st m) := by
  unfold pushFromEntries
  refine foldl_preserves SeenInv _ ?_ _ st hinv
  intro a name ha
  exact seenInv_guarded_push a ⟨name, "unknown", lineAt src m.start, true,
    some (String.mk ((capOpt m.caps 2).getD []))⟩ ha

theorem seenInv_pushNamedEntry (src : List Char) (st : List ExportInfo × List String)
    (m : MatchRes) (hinv : SeenInv st) : SeenInv (pushNamedEntry src st m) := by
  unfold pushNamedEntry
  cases capOpt m.caps 4 with
  | none => exact hinv
  | some n4 =>
    simp only
    split
    · exact hinv
    · split
      · exact hinv
      · exact seenInv_guarded_push st
          ⟨(if (capOpt m.caps 2).isSome then "default" else String.mk n4),
           (if (capOpt m.caps 2).isSome then "unknown"
            else syntaxKindFromKeyword (capOpt m.caps 3)),
           lineAt src m.start, false, none⟩ hinv

/-- C5 counterexample: a file with two `export * from` statements records two
exports both named `"*"` — the later duplicate is not dropped, because the
export-star pass never consults the `seen` set (analyzer.ts:338-342). -/
theorem claimC5_counterexample :
    (parseExports "export * from 'a'\nexport * from 'b'\n".toList
        (stripComments "export * from 'a'\nexport * from 'b'\n".toList)).map
        (fun e => e.name) = ["*", "*"] ∧
      ¬ ((parseExports "export * from 'a'\nexport * from 'b'\n".toList
        (stripComments "export * from 'a'\nexport * from 'b'\n".toList)).map
        (fun e => e.name)).Nodup := by
  have hs : stripComments "export * from 'a'\nexport * from 'b'\n".toList =
      "export * from 'a'\nexport * from 'b'\n".toList := by
    simp [stripComments, copyString, String.toList]
  rw [hs]
  constructor
  · decide
  · decide

/-- C5 (amended): export names other than the literal `"*"` are pairwise
distinct (first occurrence wins, across the re-export-list and
local-declaration shapes, which share the `seen` set); export-star records
are exempt — each `export * from` statement contributes its own `"*"`
entry, so `"*"` may repeat. -/
theorem claimC5 (src stripped : List Char) :
    (nonStarNames (parseExports src stripped)).Nodup := by
  have h0 : SeenInv (([], []) : List ExportInfo × List String) := by
    constructor
    · intro e he; cases he
    · simp [nonStarNames]
  have h1 : SeenInv ((execAll stripped exportFromRE).foldl (pushFromEntries src) ([], [])) :=
    foldl_preserves SeenInv _ (fun a b ha => seenInv_pushFromEntries src a b ha) _ _ h0
  have h2 : SeenInv ((execAll stripped exportStarRE).foldl (fun st m =>
      (st.1 ++ [⟨"*", "unknown", lineAt src m.start, true,
          some (String.mk ((capOpt m.caps 1).getD []))⟩], st.2))
      ((execAll stripped exportFromRE).foldl (pushFromEntries src) ([], []))) := by
    refine foldl_preserves SeenInv _ ?_ _ _ h1
    intro a b ha
    obtain ⟨ha1, ha2⟩ := ha
    constructor
    · intro e he hne
      rcases List.mem_append.mp he with he | he
      · exact ha1 e he hne
      · simp only [List.mem_singleton] at he
        subst he
        simp at hne
    · rw [nonStarNames_append]
      simpa using ha2
  have h3 : SeenInv ((execAll stripped exportNamedRE).foldl (pushNamedEntry src)
      ((execAll stripped exportStarRE).foldl (fun st m =>
        (st.1 ++ [⟨"*", "unknown", lineAt src m.start, true,
            some (String.mk ((capOpt m.caps 1).getD []))⟩], st.2))
        ((execAll stripped exportFromRE).foldl (pushFromEntries src) ([], [])))) :=
    foldl_preserves SeenInv _ (fun a b ha => seenInv_pushNamedEntry src a b ha) _ _ h2
  exact h3.2

/-! ## C7: the isTypeOnly flag -/

theorem importTypeTest_cons_sep (c : Char) (r : List Char)
    (hc : c = ';' ∨ c = '\x7d') : importTypeTest (c :: r) = false := by
  have hw : jsWs c = false := by rcases hc with h | h <;> subst h <;> rfl
  have hpre : "import".toList.isPrefixOf (c :: r) = false := by
    rcases hc with h | h <;> subst h <;> rfl
  simp only [importTypeTest]
  rw [List.dropWhile_cons_of_neg (by simp [hw]), hpre, Bool.false_and]

theorem importTypeTest_cons_cons_sep (a c : Char) (r : List Char)
    (hc : c = ';' ∨ c = '\x7d') : importTypeTest (a :: c :: r) = false := by
  have hw : jsWs c = false := by rcases hc with h | h <;> subst h <;> rfl
  by_cases ha : jsWs a = true
  · have hpre : "import".toList.isPrefixOf (c :: r) = false := by
      rcases hc with h | h <;> subst h <;> rfl
    simp only [importTypeTest]
    rw [List.dropWhile_cons_of_pos (by simp [ha]),
      List.dropWhile_cons_of_neg (by simp [hw]), hpre, Bool.false_and]
  · have hpre : "import".toList.isPrefixOf (a :: c :: r) = false := by
      show ('i' == a && "mport".toList.isPrefixOf (c :: r)) = false
      have h2 : "mport".toList.isPrefixOf (c :: r) = false := by
        rcases hc with h | h <;> subst h <;> rfl
      rw [h2, Bool.and_false]
    simp only [importTypeTest]
    rw [List.dropWhile_cons_of_neg (by simpa using ha), hpre, Bool.false_and]

theorem isTypeOnlyAt_sep (l : List Char) (i : Nat) (c : Char)
    (hg : l.get? i = some c) (hc : c = ';' ∨ c = '\x7d') :
    isTypeOnlyAt l i = false := by
  rw [isTypeOnlyAt, jsSlice]
  cases i with
  | zero =>
    cases l with
    | nil => simp at hg
    | cons a r =>
      simp only [List.get?_cons_zero, Option.some.injEq] at hg
      subst hg
      simpa using importTypeTest_cons_sep a (r.take 19) hc
  | succ n =>
    obtain ⟨hlt, hget⟩ := List.get?_eq_some.mp hg
    rw [List.drop_take]
    have hred : n + 1 - 1 = n := rfl
    rw [hred]
    have h21 : n + 1 + 20 - n = 21 := by omega
    rw [h21]
    have hn : n < l.length := by omega
    have hdecomp : l.drop n = l.get ⟨n, hn⟩ :: l.drop (n + 1) := by
      rw [List.drop_eq_getElem_cons hn]
      rfl
    have hdecomp2 : l.drop (n + 1) = c :: l.drop (n + 2) := by
      rw [List.drop_eq_getElem_cons hlt]
      rw [show (l[n + 1] = c) from hget]
    rw [hdecomp, hdecomp2]
    simpa using importTypeTest_cons_cons_sep (l.get ⟨n, hn⟩) c
      ((l.drop (n + 2)).take 19) hc

theorem isTypeOnlyAt_start_import_type (t : List Char) :
    isTypeOnlyAt ("import type ".toList ++ t) 0 = true := rfl

/-- C7 counterexample: in the stripped text `a;import type x from './y'` the
static import follows a `;` separator and `type` immediately follows
`import`, yet the extracted edge has `isTypeOnly = false`: the window test
(analyzer.ts:271) anchors one character before the match, which is the
text before the `;`, so `^\s*import` cannot match. -/
theorem claimC7_counterexample :
    parseImports "a;import type x from './y'".toList
        (stripComments "a;import type x from './y'".toList) "/src/a.ts" (fun s => s) =
      [{ source := "/src/a.ts", target := "./y", rawSpecifier := "./y",
         symbols := ["x"], isTypeOnly := false, isDynamic := false, line := 1 }] := by
  have hs : stripComments "a;import type x from './y'".toList =
      "a;import type x from './y'".toList := by
    simp [stripComments, copyString, String.toList]
  rw [hs]
  decide

/-- C7 (amended): a static import that follows a `;` or `}` separator is
never flagged type-only, even when `type` immediately follows `import`;
a static import starting at the very beginning of the stripped text with
`import type ` at its head is flagged type-only.  (The flag is computed by
testing `^\s*import\s+type\s+` against a 21-character window starting one
character before the match.) -/
theorem claimC7 (src stripped : List Char) (sourcePath : String)
    (resolve : String → String) (m : MatchRes) (e : ImportEdge)
    (he : mkStaticEdge src stripped sourcePath resolve m = some e) :
    ((∃ c, stripped.get? m.start = some c ∧ (c = ';' ∨ c = '\x7d')) →
        e.isTypeOnly = false) ∧
      ((m.start = 0 ∧ ∃ t, stripped = "import type ".toList ++ t) →
        e.isTypeOnly = true) := by
  have hfield : e.isTypeOnly = isTypeOnlyAt stripped m.start := by
    unfold mkStaticEdge at he
    rcases hcap : capOpt m.caps 4 with _ | spec <;> rw [hcap] at he
    · cases he
    · dsimp only at he
      by_cases hsp : spec = []
      · rw [if_pos hsp] at he; cases he
      · rw [if_neg hsp] at he
        cases he
        rfl
  constructor
  · rintro ⟨c, hg, hc⟩
    rw [hfield]
    exact isTypeOnlyAt_sep stripped m.start c hg hc
  · rintro ⟨h0, t, ht⟩
    rw [hfield, h0]
    rw [ht]
    exact isTypeOnlyAt_start_import_type t

/-- Witness for C7: instantiates both halves — the concrete match at the `;`
of `a;import type x from './y'` (flag false) and the concrete match at
offset 0 of `import type x from './y'` (flag true). -/
theorem claimC7_witness :
    (({ source := "/src/a.ts", target := "./y", rawSpecifier := "./y",
        symbols := ["x"], isTypeOnly := false, isDynamic := false,
        line := 1 } : ImportEdge).isTypeOnly = false) ∧
      (({ source := "/src/a.ts", target := "./y", rawSpecifier := "./y",
          symbols := ["x"], isTypeOnly := true, isDynamic := false,
          line := 1 } : ImportEdge).isTypeOnly = true) :=
  ⟨(claimC7 "a;import type x from './y'".toList "a;import type x from './y'".toList
      "/src/a.ts" (fun s => s)
      ⟨1, 26, [(4, "./y".toList), (1, "x".toList)]⟩ _ (by decide)).1
      ⟨';', by decide, Or.inl rfl⟩,
   (claimC7 "import type x from './y'".toList "import type x from './y'".toList
      "/src/a.ts" (fun s => s)
      ⟨0, 24, [(4, "./y".toList), (1, "x".toList)]⟩ _ (by decide)).2
      ⟨rfl, "x from './y'".toList, by decide⟩⟩

/-! ## Graph store (graph.ts)

JS `Map` is modelled as an insertion-ordered association list (set of an
existing key updates in place, set of a new key appends, delete removes the
entry); JS `Set` as an insertion-ordered list without duplicates (add of a
member is a no-op, add of a non-member appends, delete removes it).
-/

/-- File node (types.ts); the `lastModified` wall-clock field is omitted. -/
structure FileNode where
  path : String
  relativePath : String
  imports : List ImportEdge
  exports : List ExportInfo
  hash : String
  sizeBytes : Nat
  linesOfCode : Nat
deriving DecidableEq

/-- JS `Map.get`. -/
def mapGet {α : Type} (m : List (String × α)) (k : String) : Option α :=
  match m with
  | [] => none
  | (k2, v) :: rest => if k2 = k then some v else mapGet rest k

/-- JS `Map.has`. -/
def mapHas {α : Type} (m : List (String × α)) (k : String) : Bool :=
  (mapGet m k).isSome

/-- JS `Map.set`: update in place, or append a new entry. -/
def mapSet {α : Type} (m : List (String × α)) (k : String) (v : α) :
    List (String × α) :=
  match m with
  | [] => [(k, v)]
  | (k2, v2) :: rest => if k2 = k then (k2, v) :: rest else (k2, v2) :: mapSet rest k v

/-- JS `Map.delete`. -/
def mapDelete {α : Type} (m : List (String × α)) (k : String) :
    List (String × α) :=
  m.filter (fun e => e.1 ≠ k)

/-- JS `Set.add`. -/
def setAdd (s : List String) (x : String) : List String :=
  if x ∈ s then s else s ++ [x]

/-- JS `Set.delete`. -/
def setDelete (s : List String) (x : String) : List String :=
  s.filter (fun y => y ≠ x)

/-- Dependency graph (types.ts); `lastUpdate` is omitted. -/
structure Graph where
  nodes : List (String × FileNode)
  dependents : List (String × List String)
  dependencies : List (String × List String)
  projectRoot : String
deriving DecidableEq

/-- Models createGraph (graph.ts:9-17). -/
def createGraph (root : String) : Graph := ⟨[], [], [], root⟩

/-- The dependents set of an identity (empty when the map has no entry). -/
def dependentsOf (g : Graph) (k : String) : List String :=
  (mapGet g.dependents k).getD []

/-- The dependencies set of an identity (empty when the map has no entry). -/
def dependenciesOf (g : Graph) (k : String) : List String :=
  (mapGet g.dependencies k).getD []

/-- `m.get(k)?.delete(x)`: delete `x` from the set at `k` when the entry
exists. -/
def adjDeleteAt (m : List (String × List String)) (k x : String) :
    List (String × List String) :=
  match mapGet m k with
  | none => m
  | some s => mapSet m k (setDelete s x)

/-- Ensure-then-add: `if (!m.has(k)) m.set(k, new Set()); m.get(k)!.add(x)`. -/
def adjAddAt (m : List (String × List String)) (k x : String) :
    List (String × List String) :=
  match mapGet m k with
  | some s => mapSet m k (setAdd s x)
  | none => mapSet m k (setAdd [] x)

/-- `if (!m.has(k)) m.set(k, new Set())`. -/
def ensureEntry (m : List (String × List String)) (k : String) :
    List (String × List String) :=
  if mapHas m k then m else mapSet m k []

/-- The non-empty resolved targets of a node's import edges. -/
def targetsOf (imps : List ImportEdge) : List String :=
  imps.filterMap (fun i => if i.target = "" then none else some i.target)

/-- The loop body of removeNodeEdges (graph.ts:64-68) for one import of the
node at `p`. -/
def removeEdgeStep (p : String) (g : Graph) (imp : ImportEdge) : Graph :=
  if imp.target = "" then g
  else { g with
    dependents := adjDeleteAt g.dependents imp.target p,
    dependencies := adjDeleteAt g.dependencies p imp.target }

/-- Models removeNodeEdges (graph.ts:63-69). -/
def removeNodeEdges (g : Graph) (node : FileNode) : Graph :=
  node.imports.foldl (removeEdgeStep node.path) g

/-- The loop body of addNode (graph.ts:34-47) for one import of the node at
`p`: add the target to `p`'s dependencies, add `p` to the target's
dependents (creating the entry when needed), and ensure the target has a
dependencies entry. -/
def addEdgeStep (p : String) (g : Graph) (imp : ImportEdge) : Graph :=
  if imp.target = "" then g
  else
    let g5 := { g with dependencies := adjAddAt g.dependencies p imp.target }
    let g6 := { g5 with dependents := adjAddAt g5.dependents imp.target p }
    { g6 with dependencies := ensureEntry g6.dependencies imp.target }

/-- The record-insertion part of addNode (graph.ts:25-32): store the node
and ensure both adjacency maps have an entry for it (the three mutations
touch three distinct fields, so they are one record update). -/
def addNodePrep (g1 : Graph) (node : FileNode) : Graph :=
  { nodes := mapSet g1.nodes node.path node
    dependents := ensureEntry g1.dependents node.path
    dependencies := ensureEntry g1.dependencies node.path
    projectRoot := g1.projectRoot }

/-- Models addNode (graph.ts:19-50). -/
def addNode (g : Graph) (node : FileNode) : Graph :=
  let g1 := match mapGet g.nodes node.path with
    | some existing => removeNodeEdges g existing
    | none => g
  node.imports.foldl (addEdgeStep node.path) (addNodePrep g1 node)

/-- Models removeNode (graph.ts:52-61). -/
def removeNode (g : Graph) (filePath : String) : Graph :=
  match mapGet g.nodes filePath with
  | none => g
  | some node =>
    let g1 := removeNodeEdges g node
    { g1 with
      nodes := mapDelete g1.nodes filePath,
      dependencies := mapDelete g1.dependencies filePath,
      dependents := mapDelete g1.dependents filePath }

/-! ## Graph algorithms (graph.ts:71-160) -/

/-- Impact query result (types.ts). -/
structure ImpactAnalysis where
  file : String
  directDependents : List String
  transitiveDependents : List String
  totalAffected : Nat
  criticalExports : List String
deriving DecidableEq

/-- The BFS loop of getImpact (graph.ts:80-91), fueled (the loop always
terminates; `bfsFuel` below always suffices, see `bfsVisit_final`). -/
def bfsVisit (g : Graph) : Nat → List String → List String → List String
  | 0, _, visited => visited
  | fuel + 1, queue, visited =>
    match queue with
    | [] => visited
    | current :: rest =>
      if current ∈ visited then bfsVisit g fuel rest visited
      else
        let visited2 := visited ++ [current]
        bfsVisit g fuel
          (rest ++ (dependentsOf g current).filter (fun d => d ∉ visited2)) visited2

/-- Every identity occurring in some dependents set. -/
def depPool (g : Graph) : List String := (g.dependents.map Prod.snd).flatten

/-- Fuel that dominates the BFS iteration count. -/
def bfsFuel (g : Graph) (queue : List String) : Nat :=
  queue.length +
    ((depPool g).dedup.map (fun x => 1 + (dependentsOf g x).length)).sum + 1

/-- Models getImpact (graph.ts:71-116). -/
def getImpact (g : Graph) (filePath : String) : ImpactAnalysis :=
  let direct := dependentsOf g filePath
  let visited := bfsVisit g (bfsFuel g direct) direct []
  let transitive := visited.filter (fun f => f ∉ direct)
  let criticalExports :=
    match mapGet g.nodes filePath with
    | none => []
    | some nd =>
      (nd.exports.filter (fun exp =>
        (direct.filter (fun dep =>
          match mapGet g.nodes dep with
          | none => false
          | some depNode => depNode.imports.any (fun imp =>
              imp.target == filePath && imp.symbols.contains exp.name))).length > 3)).map
        (fun e => e.name)
  { file := filePath
    directDependents := direct
    transitiveDependents := transitive
    totalAffected := direct.length + transitive.length
    criticalExports := criticalExports }

/-- State of the cycle-detection traversal (graph.ts:121-124). -/
structure DetectSt where
  cycles : List (List String)
  visited : List String
  inStack : List String
  cycleKeys : List String
deriving DecidableEq

/-- Code-unit lexicographic order on character lists, the comparison JS
`Array.prototype.sort()` applies to strings by default. -/
def charListLe : List Char → List Char → Bool
  | [], _ => true
  | _ :: _, [] => false
  | a :: as, b :: bs =>
    if a.toNat < b.toNat then true
    else if b.toNat < a.toNat then false
    else charListLe as bs

/-- Code-unit lexicographic order on strings. -/
def strLe (a b : String) : Bool := charListLe a.toList b.toList

/-- Insert a string into an already sorted list, keeping it sorted. -/
def insertSorted (a : String) : List String → List String
  | [] => [a]
  | b :: l => if strLe a b then a :: b :: l else b :: insertSorted a l

/-- Sort a list of strings ascending in code-unit order; a comparison
sort over a total order, so it returns the same list as JS `.sort()`. -/
def sortStrings (l : List String) : List String := l.foldr insertSorted []

/-- The canonical key of a recorded cycle (graph.ts:142): the walked cycle
array sorted and joined with `|` (JS default sort is code-unit
lexicographic). -/
def canonicalKey (cycle : List String) : String :=
  String.intercalate "|" (sortStrings cycle)

/-- The body of the dfs loop of detectCircularDependencies
(graph.ts:131-148) for one dependency edge `node → dep`; `rec2` is the
recursive exploration of an unvisited dependency. -/
def detectStep (g : Graph) (rec2 : String → DetectSt → DetectSt)
    (path : List String) (node : String) (st : DetectSt) (dep : String) :
    DetectSt :=
  if ¬ mapHas g.nodes dep then st
  else if dep ∉ st.visited then rec2 dep st
  else if dep ∈ st.inStack then
    let cycle := match path.indexOf? dep with
      | some i => path.drop i ++ [node, dep]
      | none => path ++ [node, dep]
    let key := canonicalKey cycle
    if key ∈ st.cycleKeys then st
    else { st with cycleKeys := st.cycleKeys ++ [key], cycles := st.cycles ++ [cycle] }
  else st

/-- The recursive dfs of detectCircularDependencies (graph.ts:126-151),
fueled; recursion depth is bounded by the number of unvisited nodes, so
`g.nodes.length + 1` fuel always suffices. -/
def dfsDetect (g : Graph) : Nat → String → List String → DetectSt → DetectSt
  | 0, _, _, st => st
  | fuel + 1, node, path, st0 =>
    let st1 := { st0 with
      visited := setAdd st0.visited node, inStack := setAdd st0.inStack node }
    let st2 := (dependenciesOf g node).foldl
      (detectStep g (fun dep st => dfsDetect g fuel dep (path ++ [node]) st)
        path node) st1
    { st2 with inStack := setDelete st2.inStack node }

/-- Models detectCircularDependencies (graph.ts:118-160). -/
def detectCircularDependencies (g : Graph) : List (List String) :=
  ((g.nodes.map Prod.fst).foldl (fun st p =>
    if p ∈ st.visited then st
    else dfsDetect g (g.nodes.length + 1) p [] st) ⟨[], [], [], []⟩).cycles

/-! ## Transport guards -/

/-- Models the `/impact` route guard (server.ts:124-144): the impact is
computed only for known nodes; unknown identities get a 404. -/
def impactRoute (g : Graph) (file : String) : Option ImpactAnalysis :=
  if mapHas g.nodes file then some (getImpact g file) else none

/-- Node lookup by identity (server.ts `/node` route, part_001 get_context):
`graph.nodes.get(absPath)`, `none` = "not found". -/
def nodeLookup (g : Graph) (file : String) : Option FileNode :=
  mapGet g.nodes file

/-- Models the zero-affected branch of the MCP get_impact tool
(part_001:240-257): the tool reports "affects 0 other files (safe to
change)" whenever `totalAffected = 0` — also for identities that were never
scanned; it has no not-found branch. -/
def mcpGetImpactSaysSafe (g : Graph) (file : String) : Bool :=
  (getImpact g file).totalAffected == 0

/-! ## Map/set lemmas -/

theorem mapGet_mapSet {α : Type} (m : List (String × α)) (k k2 : String) (v : α) :
    mapGet (mapSet m k v) k2 = if k = k2 then some v else mapGet m k2 := by
  induction m with
  | nil => simp [mapSet, mapGet]
  | cons e rest ih =>
    obtain ⟨ek, ev⟩ := e
    by_cases hek : ek = k
    · subst hek
      rw [mapSet, if_pos rfl]
      by_cases hk2 : ek = k2
      · subst hk2
        simp [mapGet]
      · rw [mapGet, if_neg hk2, if_neg hk2, mapGet, if_neg hk2]
    · rw [mapSet, if_neg hek]
      by_cases hk2 : ek = k2
      · subst hk2
        have hne : ¬ k = ek := fun h => hek h.symm
        rw [mapGet, if_pos rfl, if_neg hne, mapGet, if_pos rfl]
      · rw [mapGet, if_neg hk2, ih, mapGet, if_neg hk2]

theorem mapGet_mapDelete {α : Type} (m : List (String × α)) (k k2 : String) :
    mapGet (mapDelete m k) k2 = if k = k2 then none else mapGet m k2 := by
  induction m with
  | nil => simp [mapDelete, mapGet]
  | cons e rest ih =>
    obtain ⟨ek, ev⟩ := e
    by_cases hek : ek = k
    · subst hek
      have : mapDelete ((ek, ev) :: rest) ek = mapDelete rest ek := by
        simp [mapDelete]
      rw [this, ih]
      by_cases hk2 : ek = k2
      · subst hk2; simp
      · rw [if_neg hk2, if_neg hk2, mapGet, if_neg hk2]
    · have : mapDelete ((ek, ev) :: rest) k = (ek, ev) :: mapDelete rest k := by
        simp [mapDelete, hek]
      rw [this]
      by_cases hk2 : ek = k2
      · subst hk2
        have hne : ¬ k = ek := fun h => hek h.symm
        rw [mapGet, if_pos rfl, if_neg hne, mapGet, if_pos rfl]
      · rw [mapGet, if_neg hk2, ih, mapGet, if_neg hk2]

theorem mem_setAdd (s : List String) (x y : String) :
    y ∈ setAdd s x ↔ y ∈ s ∨ y = x := by
  rw [setAdd]
  split
  · next h =>
    constructor
    · exact fun hy => Or.inl hy
    · rintro (hy | rfl)
      · exact hy
      · exact h
  · simp

theorem mem_setDelete (s : List String) (x y : String) :
    y ∈ setDelete s x ↔ y ∈ s ∧ y ≠ x := by
  simp [setDelete]

/-- Entry lookup (with empty default) after `m.get(k)?.delete(x)`. -/
theorem adjDeleteAt_entry (m : List (String × List String)) (k x k2 : String) :
    (mapGet (adjDeleteAt m k x) k2).getD [] =
      if k = k2 then setDelete ((mapGet m k).getD []) x
      else (mapGet m k2).getD [] := by
  rw [adjDeleteAt]
  cases hmk : mapGet m k with
  | none =>
    by_cases hk : k = k2
    · subst hk
      rw [if_pos rfl, hmk]
      rfl
    · rw [if_neg hk]
  | some s =>
    rw [mapGet_mapSet]
    by_cases hk : k = k2
    · rw [if_pos hk, if_pos hk]
      rfl
    · rw [if_neg hk, if_neg hk]

/-- Entry lookup (with empty default) after ensure-then-add. -/
theorem adjAddAt_entry (m : List (String × List String)) (k x k2 : String) :
    (mapGet (adjAddAt m k x) k2).getD [] =
      if k = k2 then setAdd ((mapGet m k).getD []) x
      else (mapGet m k2).getD [] := by
  rw [adjAddAt]
  cases hmk : mapGet m k with
  | none =>
    rw [mapGet_mapSet]
    by_cases hk : k = k2
    · rw [if_pos hk, if_pos hk]
      rfl
    · rw [if_neg hk, if_neg hk]
  | some s =>
    rw [mapGet_mapSet]
    by_cases hk : k = k2
    · rw [if_pos hk, if_pos hk]
      rfl
    · rw [if_neg hk, if_neg hk]

/-- `ensureEntry` never changes an entry's (defaulted) value. -/
theorem ensureEntry_entry (m : List (String × List String)) (k k2 : String) :
    (mapGet (ensureEntry m k) k2).getD [] = (mapGet m k2).getD [] := by
  rw [ensureEntry]
  split
  · rfl
  · next h =>
    rw [mapGet_mapSet]
    by_cases hk : k = k2
    · rw [if_pos hk]
      subst hk
      rw [mapHas] at h
      cases hmk : mapGet m k with
      | none => simp [hmk]
      | some s => rw [hmk] at h; simp at h
    · rw [if_neg hk]

/-! ## Effect of the store operations on adjacency membership -/

theorem removeEdgeStep_nodes (p : String) (g : Graph) (imp : ImportEdge) :
    (removeEdgeStep p g imp).nodes = g.nodes := by
  rw [removeEdgeStep]
  split <;> rfl

theorem addEdgeStep_nodes (p : String) (g : Graph) (imp : ImportEdge) :
    (addEdgeStep p g imp).nodes = g.nodes := by
  rw [addEdgeStep]
  split <;> rfl

theorem foldl_removeEdgeStep_nodes (p : String) :
    ∀ (imps : List ImportEdge) (g : Graph),
      (imps.foldl (removeEdgeStep p) g).nodes = g.nodes := by
  intro imps
  induction imps with
  | nil => intro g; rfl
  | cons imp rest ih =>
    intro g
    rw [List.foldl_cons, ih, removeEdgeStep_nodes]

theorem foldl_addEdgeStep_nodes (p : String) :
    ∀ (imps : List ImportEdge) (g : Graph),
      (imps.foldl (addEdgeStep p) g).nodes = g.nodes := by
  intro imps
  induction imps with
  | nil => intro g; rfl
  | cons imp rest ih =>
    intro g
    rw [List.foldl_cons, ih, addEdgeStep_nodes]

theorem targetsOf_cons (imp : ImportEdge) (rest : List ImportEdge) :
    targetsOf (imp :: rest) =
      if imp.target = "" then targetsOf rest else imp.target :: targetsOf rest := by
  by_cases ht : imp.target = ""
  · simp [targetsOf, ht]
  · simp [targetsOf, ht]

theorem rneFold_dents (p : String) :
    ∀ (imps : List ImportEdge) (g : Graph) (a b : String),
      b ∈ dependentsOf (imps.foldl (removeEdgeStep p) g) a ↔
        b ∈ dependentsOf g a ∧ ¬(b = p ∧ a ∈ targetsOf imps) := by
  intro imps
  induction imps with
  | nil =>
    intro g a b
    simp [targetsOf]
  | cons imp rest ih =>
    intro g a b
    rw [List.foldl_cons, ih, targetsOf_cons]
    by_cases ht : imp.target = ""
    · rw [if_pos ht, removeEdgeStep, if_pos ht]
    · rw [if_neg ht]
      have hstep : b ∈ dependentsOf (removeEdgeStep p g imp) a ↔
          b ∈ dependentsOf g a ∧ ¬(a = imp.target ∧ b = p) := by
        rw [removeEdgeStep, if_neg ht]
        show b ∈ (mapGet (adjDeleteAt g.dependents imp.target p) a).getD [] ↔ _
        rw [adjDeleteAt_entry]
        by_cases ha : imp.target = a
        · rw [if_pos ha, mem_setDelete]
          subst ha
          constructor
          · rintro ⟨h1, h2⟩; exact ⟨h1, fun h => h2 h.2⟩
          · rintro ⟨h1, h2⟩; exact ⟨h1, fun h => h2 ⟨rfl, h⟩⟩
        · rw [if_neg ha]
          constructor
          · intro h1; exact ⟨h1, fun h => ha h.1.symm⟩
          · exact fun h => h.1
      rw [hstep]
      constructor
      · rintro ⟨⟨h1, h2⟩, h3⟩
        refine ⟨h1, ?_⟩
        rintro ⟨rfl, hmem⟩
        rcases List.mem_cons.mp hmem with h | h
        · exact h2 ⟨h, rfl⟩
        · exact h3 ⟨rfl, h⟩
      · rintro ⟨h1, h2⟩
        refine ⟨⟨h1, ?_⟩, ?_⟩
        · rintro ⟨rfl, rfl⟩
          exact h2 ⟨rfl, List.mem_cons_self _ _⟩
        · rintro ⟨rfl, h⟩
          exact h2 ⟨rfl, List.mem_cons_of_mem _ h⟩

theorem rneFold_dency (p : String) :
    ∀ (imps : List ImportEdge) (g : Graph) (q x : String),
      x ∈ dependenciesOf (imps.foldl (removeEdgeStep p) g) q ↔
        x ∈ dependenciesOf g q ∧ ¬(q = p ∧ x ∈ targetsOf imps) := by
  intro imps
  induction imps with
  | nil =>
    intro g q x
    simp [targetsOf]
  | cons imp rest ih =>
    intro g q x
    rw [List.foldl_cons, ih, targetsOf_cons]
    by_cases ht : imp.target = ""
    · rw [if_pos ht, removeEdgeStep, if_pos ht]
    · rw [if_neg ht]
      have hstep : x ∈ dependenciesOf (removeEdgeStep p g imp) q ↔
          x ∈ dependenciesOf g q ∧ ¬(q = p ∧ x = imp.target) := by
        rw [removeEdgeStep, if_neg ht]
        show x ∈ (mapGet (adjDeleteAt g.dependencies p imp.target) q).getD [] ↔ _
        rw [adjDeleteAt_entry]
        by_cases hq : p = q
        · rw [if_pos hq, mem_setDelete]
          subst hq
          constructor
          · rintro ⟨h1, h2⟩; exact ⟨h1, fun h => h2 h.2⟩
          · rintro ⟨h1, h2⟩; exact ⟨h1, fun h => h2 ⟨rfl, h⟩⟩
        · rw [if_neg hq]
          constructor
          · intro h1; exact ⟨h1, fun h => hq h.1.symm⟩
          · exact fun h => h.1
      rw [hstep]
      constructor
      · rintro ⟨⟨h1, h2⟩, h3⟩
        refine ⟨h1, ?_⟩
        rintro ⟨rfl, hmem⟩
        rcases List.mem_cons.mp hmem with h | h
        · exact h2 ⟨rfl, h⟩
        · exact h3 ⟨rfl, h⟩
      · rintro ⟨h1, h2⟩
        refine ⟨⟨h1, ?_⟩, ?_⟩
        · rintro ⟨rfl, rfl⟩
          exact h2 ⟨rfl, List.mem_cons_self _ _⟩
        · rintro ⟨rfl, h⟩
          exact h2 ⟨rfl, List.mem_cons_of_mem _ h⟩

theorem addFold_dents (p : String) :
    ∀ (imps : List ImportEdge) (g : Graph) (a b : String),
      b ∈ dependentsOf (imps.foldl (addEdgeStep p) g) a ↔
        b ∈ dependentsOf g a ∨ (b = p ∧ a ∈ targetsOf imps) := by
  intro imps
  induction imps with
  | nil =>
    intro g a b
    simp [targetsOf]
  | cons imp rest ih =>
    intro g a b
    rw [List.foldl_cons, ih, targetsOf_cons]
    by_cases ht : imp.target = ""
    · rw [if_pos ht, addEdgeStep, if_pos ht]
    · rw [if_neg ht]
      have hstep : b ∈ dependentsOf (addEdgeStep p g imp) a ↔
          b ∈ dependentsOf g a ∨ (a = imp.target ∧ b = p) := by
        rw [addEdgeStep, if_neg ht]
        show b ∈ (mapGet (adjAddAt g.dependents imp.target p) a).getD [] ↔ _
        rw [adjAddAt_entry]
        by_cases ha : imp.target = a
        · rw [if_pos ha, mem_setAdd]
          subst ha
          constructor
          · rintro (h | rfl)
            · exact Or.inl h
            · exact Or.inr ⟨rfl, rfl⟩
          · rintro (h | ⟨-, rfl⟩)
            · exact Or.inl h
            · exact Or.inr rfl
        · rw [if_neg ha]
          constructor
          · exact Or.inl
          · rintro (h | ⟨ha2, -⟩)
            · exact h
            · exact absurd ha2.symm ha
      rw [hstep]
      constructor
      · rintro ((h | ⟨rfl, rfl⟩) | ⟨rfl, h⟩)
        · exact Or.inl h
        · exact Or.inr ⟨rfl, List.mem_cons_self _ _⟩
        · exact Or.inr ⟨rfl, List.mem_cons_of_mem _ h⟩
      · rintro (h | ⟨rfl, hmem⟩)
        · exact Or.inl (Or.inl h)
        · rcases List.mem_cons.mp hmem with h | h
          · exact Or.inl (Or.inr ⟨h, rfl⟩)
          · exact Or.inr ⟨rfl, h⟩

theorem addFold_dency (p : String) :
    ∀ (imps : List ImportEdge) (g : Graph) (q x : String),
      x ∈ dependenciesOf (imps.foldl (addEdgeStep p) g) q ↔
        x ∈ dependenciesOf g q ∨ (q = p ∧ x ∈ targetsOf imps) := by
  intro imps
  induction imps with
  | nil =>
    intro g q x
    simp [targetsOf]
  | cons imp rest ih =>
    intro g q x
    rw [List.foldl_cons, ih, targetsOf_cons]
    by_cases ht : imp.target = ""
    · rw [if_pos ht, addEdgeStep, if_pos ht]
    · rw [if_neg ht]
      have hstep : x ∈ dependenciesOf (addEdgeStep p g imp) q ↔
          x ∈ dependenciesOf g q ∨ (q = p ∧ x = imp.target) := by
        rw [addEdgeStep, if_neg ht]
        show x ∈ (mapGet (ensureEntry (adjAddAt g.dependencies p imp.target)
            imp.target) q).getD [] ↔ _
        rw [ensureEntry_entry, adjAddAt_entry]
        by_cases hq : p = q
        · rw [if_pos hq, mem_setAdd]
          subst hq
          constructor
          · rintro (h | rfl)
            · exact Or.inl h
            · exact Or.inr ⟨rfl, rfl⟩
          · rintro (h | ⟨-, rfl⟩)
            · exact Or.inl h
            · exact Or.inr rfl
        · rw [if_neg hq]
          constructor
          · exact Or.inl
          · rintro (h | ⟨hq2, -⟩)
            · exact h
            · exact absurd hq2.symm hq
      rw [hstep]
      constructor
      · rintro ((h | ⟨rfl, rfl⟩) | ⟨rfl, h⟩)
        · exact Or.inl h
        · exact Or.inr ⟨rfl, List.mem_cons_self _ _⟩
        · exact Or.inr ⟨rfl, List.mem_cons_of_mem _ h⟩
      · rintro (h | ⟨rfl, hmem⟩)
        · exact Or.inl (Or.inl h)
        · rcases List.mem_cons.mp hmem with h | h
          · exact Or.inl (Or.inr ⟨rfl, h⟩)
          · exact Or.inr ⟨rfl, h⟩

theorem addNodePrep_dents (g1 : Graph) (n : FileNode) (a : String) :
    dependentsOf (addNodePrep g1 n) a = dependentsOf g1 a := by
  show (mapGet (ensureEntry g1.dependents n.path) a).getD [] = _
  rw [ensureEntry_entry]
  rfl

theorem addNodePrep_dency (g1 : Graph) (n : FileNode) (q : String) :
    dependenciesOf (addNodePrep g1 n) q = dependenciesOf g1 q := by
  show (mapGet (ensureEntry g1.dependencies n.path) q).getD [] = _
  rw [ensureEntry_entry]
  rfl

/-! ## Store invariants and reachable states -/

/-- Stored nodes sit under their own path as key. -/
def InvE (g : Graph) : Prop := ∀ p nd, mapGet g.nodes p = some nd → nd.path = p

/-- Identities without a node record have empty dependencies. -/
def InvA (g : Graph) : Prop := ∀ p x, mapGet g.nodes p = none → x ∉ dependenciesOf g p

/-- A node's dependencies set holds exactly its non-empty import targets. -/
def InvB (g : Graph) : Prop :=
  ∀ p nd t, mapGet g.nodes p = some nd →
    (t ∈ dependenciesOf g p ↔ t ∈ targetsOf nd.imports)

/-- Every dependents entry is justified by a current node's import edge. -/
def InvC (g : Graph) : Prop :=
  ∀ a b, b ∈ dependentsOf g a →
    ∃ nd, mapGet g.nodes b = some nd ∧ a ∈ targetsOf nd.imports

/-- Every current node's edge is registered in the target's dependents set
(maintained by addNode; broken by removeNode's staleness tradeoff). -/
def InvD (g : Graph) : Prop :=
  ∀ b nd a, mapGet g.nodes b = some nd → a ∈ targetsOf nd.imports →
    b ∈ dependentsOf g a

theorem addNode_nodes_get (g : Graph) (n : FileNode) (q : String) :
    mapGet (addNode g n).nodes q = if n.path = q then some n else mapGet g.nodes q := by
  unfold addNode
  cases hx : mapGet g.nodes n.path with
  | some e =>
    dsimp only
    rw [foldl_addEdgeStep_nodes]
    show mapGet (mapSet (removeNodeEdges g e).nodes n.path n) q = _
    rw [removeNodeEdges, foldl_removeEdgeStep_nodes, mapGet_mapSet]
  | none =>
    dsimp only
    rw [foldl_addEdgeStep_nodes]
    show mapGet (mapSet g.nodes n.path n) q = _
    rw [mapGet_mapSet]

theorem removeNode_absent (g : Graph) (p : String)
    (h : mapGet g.nodes p = none) : removeNode g p = g := by
  unfold removeNode
  rw [h]

theorem removeNode_nodes_get (g : Graph) (p q : String) :
    mapGet (removeNode g p).nodes q = if p = q then none else mapGet g.nodes q := by
  unfold removeNode
  cases hx : mapGet g.nodes p with
  | none =>
    by_cases hq : p = q
    · subst hq; rw [if_pos rfl]; exact hx
    · rw [if_neg hq]
  | some e =>
    dsimp only
    show mapGet (mapDelete (removeNodeEdges g e).nodes p) q = _
    rw [removeNodeEdges, foldl_removeEdgeStep_nodes, mapGet_mapDelete]

theorem addNode_dency_mem (g : Graph) (n : FileNode)
    (hA : InvA g) (hB : InvB g) (hE : InvE g) (q x : String) :
    x ∈ dependenciesOf (addNode g n) q ↔
      (q = n.path ∧ x ∈ targetsOf n.imports) ∨
        (q ≠ n.path ∧ x ∈ dependenciesOf g q) := by
  unfold addNode
  cases hx : mapGet g.nodes n.path with
  | some e =>
    dsimp only
    rw [addFold_dency, addNodePrep_dency, removeNodeEdges, rneFold_dency,
      hE n.path e hx]
    constructor
    · rintro (⟨hmem, hneg⟩ | ⟨rfl, hmem⟩)
      · by_cases hq : q = n.path
        · subst hq
          exact absurd ((hB n.path e x hx).mp hmem) (fun h => hneg ⟨rfl, h⟩)
        · exact Or.inr ⟨hq, hmem⟩
      · exact Or.inl ⟨rfl, hmem⟩
    · rintro (⟨rfl, hmem⟩ | ⟨hq, hmem⟩)
      · exact Or.inr ⟨rfl, hmem⟩
      · exact Or.inl ⟨hmem, fun h => hq h.1⟩
  | none =>
    dsimp only
    rw [addFold_dency, addNodePrep_dency]
    constructor
    · rintro (hmem | ⟨rfl, hmem⟩)
      · by_cases hq : q = n.path
        · subst hq
          exact absurd hmem (hA n.path x hx)
        · exact Or.inr ⟨hq, hmem⟩
      · exact Or.inl ⟨rfl, hmem⟩
    · rintro (⟨rfl, hmem⟩ | ⟨hq, hmem⟩)
      · exact Or.inr ⟨rfl, hmem⟩
      · exact Or.inl hmem

theorem addNode_dents_mem (g : Graph) (n : FileNode)
    (hC : InvC g) (hE : InvE g) (a b : String) :
    b ∈ dependentsOf (addNode g n) a ↔
      (b = n.path ∧ a ∈ targetsOf n.imports) ∨
        (b ≠ n.path ∧ b ∈ dependentsOf g a) := by
  unfold addNode
  cases hx : mapGet g.nodes n.path with
  | some e =>
    dsimp only
    rw [addFold_dents, addNodePrep_dents, removeNodeEdges, rneFold_dents,
      hE n.path e hx]
    constructor
    · rintro (⟨hmem, hneg⟩ | ⟨rfl, hmem⟩)
      · by_cases hb : b = n.path
        · subst hb
          obtain ⟨nd, hnd, hat⟩ := hC a n.path hmem
          rw [hx] at hnd
          cases hnd
          exact absurd hat (fun h => hneg ⟨rfl, h⟩)
        · exact Or.inr ⟨hb, hmem⟩
      · exact Or.inl ⟨rfl, hmem⟩
    · rintro (⟨rfl, hmem⟩ | ⟨hb, hmem⟩)
      · exact Or.inr ⟨rfl, hmem⟩
      · exact Or.inl ⟨hmem, fun h => hb h.1⟩
  | none =>
    dsimp only
    rw [addFold_dents, addNodePrep_dents]
    constructor
    · rintro (hmem | ⟨rfl, hmem⟩)
      · by_cases hb : b = n.path
        · subst hb
          obtain ⟨nd, hnd, hat⟩ := hC a n.path hmem
          rw [hx] at hnd
          cases hnd
        · exact Or.inr ⟨hb, hmem⟩
      · exact Or.inl ⟨rfl, hmem⟩
    · rintro (⟨rfl, hmem⟩ | ⟨hb, hmem⟩)
      · exact Or.inr ⟨rfl, hmem⟩
      · exact Or.inl hmem

theorem removeNode_dency_mem (g : Graph) (p : String) (e : FileNode)
    (he : mapGet g.nodes p = some e) (hE : InvE g) (q x : String) :
    x ∈ dependenciesOf (removeNode g p) q ↔ q ≠ p ∧ x ∈ dependenciesOf g q := by
  unfold removeNode
  rw [he]
  dsimp only
  show x ∈ (mapGet (mapDelete (removeNodeEdges g e).dependencies p) q).getD [] ↔ _
  rw [mapGet_mapDelete]
  by_cases hq : p = q
  · rw [if_pos hq]
    subst hq
    constructor
    · intro h; cases h
    · rintro ⟨hne, -⟩; exact absurd rfl hne
  · rw [if_neg hq]
    show x ∈ dependenciesOf (removeNodeEdges g e) q ↔ _
    rw [removeNodeEdges, rneFold_dency, hE p e he]
    constructor
    · rintro ⟨h1, -⟩
      exact ⟨fun h => hq h.symm, h1⟩
    · rintro ⟨hne, h1⟩
      exact ⟨h1, fun h => hne h.1⟩

theorem removeNode_dents_mem (g : Graph) (p : String) (e : FileNode)
    (he : mapGet g.nodes p = some e) (hC : InvC g) (hE : InvE g) (a b : String) :
    b ∈ dependentsOf (removeNode g p) a ↔
      b ≠ p ∧ a ≠ p ∧ b ∈ dependentsOf g a := by
  unfold removeNode
  rw [he]
  dsimp only
  show b ∈ (mapGet (mapDelete (removeNodeEdges g e).dependents p) a).getD [] ↔ _
  rw [mapGet_mapDelete]
  by_cases ha : p = a
  · rw [if_pos ha]
    subst ha
    constructor
    · intro h; cases h
    · rintro ⟨-, hne, -⟩; exact absurd rfl hne
  · rw [if_neg ha]
    show b ∈ dependentsOf (removeNodeEdges g e) a ↔ _
    rw [removeNodeEdges, rneFold_dents, hE p e he]
    constructor
    · rintro ⟨h1, hneg⟩
      refine ⟨?_, fun h => ha h.symm, h1⟩
      intro hb
      subst hb
      obtain ⟨nd, hnd, hat⟩ := hC a b h1
      rw [he] at hnd
      cases hnd
      exact hneg ⟨rfl, hat⟩
    · rintro ⟨hb, -, h1⟩
      exact ⟨h1, fun h => hb h.1⟩

/-- The invariant package maintained by every store operation. -/
def StoreInv (g : Graph) : Prop := InvE g ∧ InvA g ∧ InvB g ∧ InvC g

theorem storeInv_create (root : String) : StoreInv (createGraph root) := by
  refine ⟨?_, ?_, ?_, ?_⟩
  · intro p nd h; cases h
  · intro p x h hm; cases hm
  · intro p nd t h; cases h
  · intro a b hm; cases hm

theorem storeInv_addNode (g : Graph) (n : FileNode) (h : StoreInv g) :
    StoreInv (addNode g n) := by
  obtain ⟨hE, hA, hB, hC⟩ := h
  refine ⟨?_, ?_, ?_, ?_⟩
  · intro p nd hget
    rw [addNode_nodes_get] at hget
    by_cases hp : n.path = p
    · rw [if_pos hp] at hget
      cases hget
      exact hp
    · rw [if_neg hp] at hget
      exact hE p nd hget
  · intro p x hnone hmem
    rw [addNode_nodes_get] at hnone
    by_cases hp : n.path = p
    · rw [if_pos hp] at hnone; cases hnone
    · rw [if_neg hp] at hnone
      rcases (addNode_dency_mem g n hA hB hE p x).mp hmem with ⟨hp2, -⟩ | ⟨-, hmem2⟩
      · exact hp hp2.symm
      · exact hA p x hnone hmem2
  · intro p nd t hget
    rw [addNode_nodes_get] at hget
    rw [addNode_dency_mem g n hA hB hE p t]
    by_cases hp : n.path = p
    · rw [if_pos hp] at hget
      cases hget
      constructor
      · rintro (⟨-, hmem⟩ | ⟨hne, -⟩)
        · exact hmem
        · exact absurd hp.symm hne
      · intro hmem
        exact Or.inl ⟨hp.symm, hmem⟩
    · rw [if_neg hp] at hget
      constructor
      · rintro (⟨hp2, -⟩ | ⟨-, hmem⟩)
        · exact absurd hp2.symm hp
        · exact (hB p nd t hget).mp hmem
      · intro hmem
        exact Or.inr ⟨fun h2 => hp h2.symm, (hB p nd t hget).mpr hmem⟩
  · intro a b hmem
    rcases (addNode_dents_mem g n hC hE a b).mp hmem with ⟨rfl, hat⟩ | ⟨hb, hmem2⟩
    · refine ⟨n, ?_, hat⟩
      rw [addNode_nodes_get, if_pos rfl]
    · obtain ⟨nd, hnd, hat⟩ := hC a b hmem2
      refine ⟨nd, ?_, hat⟩
      rw [addNode_nodes_get, if_neg (fun h2 => hb h2.symm)]
      exact hnd

theorem storeInv_removeNode (g : Graph) (p : String) (h : StoreInv g) :
    StoreInv (removeNode g p) := by
  obtain ⟨hE, hA, hB, hC⟩ := h
  cases he : mapGet g.nodes p with
  | none =>
    rw [removeNode_absent g p he]
    exact ⟨hE, hA, hB, hC⟩
  | some e =>
    refine ⟨?_, ?_, ?_, ?_⟩
    · intro q nd hget
      rw [removeNode_nodes_get] at hget
      by_cases hq : p = q
      · rw [if_pos hq] at hget; cases hget
      · rw [if_neg hq] at hget
        exact hE q nd hget
    · intro q x hnone hmem
      rw [removeNode_dency_mem g p e he hE q x] at hmem
      obtain ⟨hq, hmem2⟩ := hmem
      rw [removeNode_nodes_get, if_neg (fun h2 => hq h2.symm)] at hnone
      exact hA q x hnone hmem2
    · intro q nd t hget
      rw [removeNode_nodes_get] at hget
      by_cases hq : p = q
      · rw [if_pos hq] at hget; cases hget
      · rw [if_neg hq] at hget
        rw [removeNode_dency_mem g p e he hE q t]
        constructor
        · rintro ⟨-, hmem⟩
          exact (hB q nd t hget).mp hmem
        · intro hmem
          exact ⟨fun h2 => hq h2.symm, (hB q nd t hget).mpr hmem⟩
    · intro a b hmem
      rw [removeNode_dents_mem g p e he hC hE a b] at hmem
      obtain ⟨hb, ha, hmem2⟩ := hmem
      obtain ⟨nd, hnd, hat⟩ := hC a b hmem2
      refine ⟨nd, ?_, hat⟩
      rw [removeNode_nodes_get, if_neg (fun h2 => hb h2.symm)]
      exact hnd

theorem invD_create (root : String) : InvD (createGraph root) := by
  intro b nd a h; cases h

theorem invD_addNode (g : Graph) (n : FileNode) (h : StoreInv g) (hD : InvD g) :
    InvD (addNode g n) := by
  obtain ⟨hE, hA, hB, hC⟩ := h
  intro b nd a hget hat
  rw [addNode_nodes_get] at hget
  rw [addNode_dents_mem g n hC hE a b]
  by_cases hp : n.path = b
  · rw [if_pos hp] at hget
    cases hget
    exact Or.inl ⟨hp.symm, hat⟩
  · rw [if_neg hp] at hget
    exact Or.inr ⟨fun h2 => hp h2.symm, hD b nd a hget hat⟩

/-- The graph states reachable from the empty graph by any sequence of
addNode / removeNode calls. -/
inductive Reachable : Graph → Prop
  | empty (root : String) : Reachable (createGraph root)
  | add {g : Graph} (n : FileNode) : Reachable g → Reachable (addNode g n)
  | remove {g : Graph} (p : String) : Reachable g → Reachable (removeNode g p)

/-- The graph states reachable from the empty graph by addNode calls only. -/
inductive ReachableAdd : Graph → Prop
  | empty (root : String) : ReachableAdd (createGraph root)
  | add {g : Graph} (n : FileNode) : ReachableAdd g → ReachableAdd (addNode g n)

theorem reachable_storeInv {g : Graph} (h : Reachable g) : StoreInv g := by
  induction h with
  | empty root => exact storeInv_create root
  | add n _ ih => exact storeInv_addNode _ n ih
  | remove p _ ih => exact storeInv_removeNode _ p ih

theorem reachableAdd_storeInv {g : Graph} (h : ReachableAdd g) :
    StoreInv g ∧ InvD g := by
  induction h with
  | empty root => exact ⟨storeInv_create root, invD_create root⟩
  | add n _ ih => exact ⟨storeInv_addNode _ n ih.1, invD_addNode _ n ih.1 ih.2⟩

/-! ## Concrete graph fixtures -/

/-- An import edge with the given source and resolved target. -/
def edgeTo (src tgt : String) : ImportEdge := ⟨src, tgt, tgt, [], false, false, 1⟩

/-- `a.ts`, importing `b.ts`. -/
def nodeA : FileNode := ⟨"/a.ts", "a.ts", [edgeTo "/a.ts" "/b.ts"], [], "ha", 10, 1⟩

/-- `b.ts`, importing nothing. -/
def nodeB : FileNode := ⟨"/b.ts", "b.ts", [], [], "hb", 10, 1⟩

/-- `b.ts`, importing `a.ts` (for the mutual-import scenario). -/
def nodeBA : FileNode := ⟨"/b.ts", "b.ts", [edgeTo "/b.ts" "/a.ts"], [], "hb", 10, 1⟩

/-- Both files added; `a.ts` imports `b.ts`; no removals. -/
def gAB : Graph := addNode (addNode (createGraph "/") nodeB) nodeA

/-- `gAB` after `removeNode "/b.ts"`: the dependents entry of `b.ts` is gone
while `a.ts` still lists `b.ts` among its dependencies (the documented
staleness tradeoff). -/
def gStale : Graph := removeNode gAB "/b.ts"

/-- Two-file mutual import: `a.ts` imports `b.ts` and vice versa. -/
def gCycle : Graph := addNode (addNode (createGraph "/") nodeA) nodeBA

/-- `b.ts`, importing `c.ts` (for the three-file cycle scenario). -/
def nodeBC : FileNode := ⟨"/b.ts", "b.ts", [edgeTo "/b.ts" "/c.ts"], [], "hb", 10, 1⟩

/-- `c.ts`, importing `a.ts` and itself (a self-loop on top of the cycle). -/
def nodeCAC : FileNode :=
  ⟨"/c.ts", "c.ts", [edgeTo "/c.ts" "/a.ts", edgeTo "/c.ts" "/c.ts"], [], "hc", 10, 1⟩

/-- Three-file cycle `a.ts -> b.ts -> c.ts -> a.ts` with an additional
self-loop `c.ts -> c.ts`. -/
def gSelf : Graph := addNode (addNode (addNode (createGraph "/") nodeA) nodeBC) nodeCAC

/-! ## C1: adjacency symmetry -/

/-- C1 counterexample: after `addNode b`, `addNode a` (a imports b),
`removeNode b` — a reachable state — `b.ts` is still in
`dependencies(a.ts)` but `a.ts` is not in `dependents(b.ts)` (the whole
entry was deleted), so the symmetry equivalence fails. -/
theorem claimC1_counterexample :
    ¬ (∀ g, Reachable g → ∀ a b,
        (b ∈ dependentsOf g a ↔ a ∈ dependenciesOf g b)) := by
  intro h
  have hr : Reachable gStale :=
    Reachable.remove "/b.ts"
      (Reachable.add nodeA (Reachable.add nodeB (Reachable.empty "/")))
  have hmem : "/a.ts" ∈ dependentsOf gStale "/b.ts" :=
    (h gStale hr "/b.ts" "/a.ts").mpr (by decide)
  exact absurd hmem (by decide)

/-- C1 (amended): in every reachable state the forward direction holds
(`B ∈ dependents(A) → A ∈ dependencies(B)`), and the full equivalence holds
for every state reachable via addNode alone; removeNode may leave a removed
identity inside others' dependencies sets with no dependents entry of its
own, breaking the converse direction. -/
theorem claimC1 :
    (∀ g, Reachable g → ∀ a b, b ∈ dependentsOf g a → a ∈ dependenciesOf g b) ∧
    (∀ g, ReachableAdd g → ∀ a b,
      (b ∈ dependentsOf g a ↔ a ∈ dependenciesOf g b)) := by
  constructor
  · intro g hg a b hmem
    obtain ⟨hE, hA, hB, hC⟩ := reachable_storeInv hg
    obtain ⟨nd, hnd, hat⟩ := hC a b hmem
    exact (hB b nd a hnd).mpr hat
  · intro g hg a b
    obtain ⟨⟨hE, hA, hB, hC⟩, hD⟩ := reachableAdd_storeInv hg
    constructor
    · intro hmem
      obtain ⟨nd, hnd, hat⟩ := hC a b hmem
      exact (hB b nd a hnd).mpr hat
    · intro hmem
      cases hnd : mapGet g.nodes b with
      | none => exact absurd hmem (hA b a hnd)
      | some nd => exact hD b nd a hnd ((hB b nd a hnd).mp hmem)

/-- Witness for C1 at the concrete addNode-only state `gAB`. -/
theorem claimC1_witness :
    ("/a.ts" ∈ dependentsOf gAB "/b.ts" ↔ "/b.ts" ∈ dependenciesOf gAB "/a.ts") :=
  claimC1.2 gAB
    (ReachableAdd.add nodeA (ReachableAdd.add nodeB (ReachableAdd.empty "/")))
    "/b.ts" "/a.ts"

/-! ## C8: idempotent re-add -/

/-- C8 counterexample: in the reachable state `gStale` the node `a.ts` is
present unchanged, yet re-adding it changes the dependents set of `b.ts`
from empty (entry deleted by removeNode) to containing `a.ts`. -/
theorem claimC8_counterexample :
    mapGet gStale.nodes "/a.ts" = some nodeA ∧
      "/a.ts" ∉ dependentsOf gStale "/b.ts" ∧
      "/a.ts" ∈ dependentsOf (addNode gStale nodeA) "/b.ts" := by
  refine ⟨by decide, by decide, by decide⟩

/-- C8 (amended): re-adding an unchanged, already-present node leaves the
membership of every dependents set and every dependencies set unchanged in
every state reachable via addNode alone; after a removeNode has deleted a
target's dependents entry, re-adding an unchanged importer recreates that
entry (see the counterexample). -/
theorem claimC8 (g : Graph) (n : FileNode) (hg : ReachableAdd g)
    (hn : mapGet g.nodes n.path = some n) :
    (∀ a b, b ∈ dependentsOf (addNode g n) a ↔ b ∈ dependentsOf g a) ∧
    (∀ q x, x ∈ dependenciesOf (addNode g n) q ↔ x ∈ dependenciesOf g q) := by
  obtain ⟨⟨hE, hA, hB, hC⟩, hD⟩ := reachableAdd_storeInv hg
  constructor
  · intro a b
    rw [addNode_dents_mem g n hC hE a b]
    constructor
    · rintro (⟨rfl, hat⟩ | ⟨-, hmem⟩)
      · exact hD n.path n a hn hat
      · exact hmem
    · intro hmem
      by_cases hb : b = n.path
      · subst hb
        obtain ⟨nd, hnd, hat⟩ := hC a n.path hmem
        rw [hn] at hnd
        cases hnd
        exact Or.inl ⟨rfl, hat⟩
      · exact Or.inr ⟨hb, hmem⟩
  · intro q x
    rw [addNode_dency_mem g n hA hB hE q x]
    constructor
    · rintro (⟨rfl, hat⟩ | ⟨-, hmem⟩)
      · exact (hB n.path n x hn).mpr hat
      · exact hmem
    · intro hmem
      by_cases hq : q = n.path
      · subst hq
        exact Or.inl ⟨rfl, (hB n.path n x hn).mp hmem⟩
      · exact Or.inr ⟨hq, hmem⟩

/-- Witness for C8 at the concrete addNode-only state `gAB` with the
already-present node `a.ts`. -/
theorem claimC8_witness :
    ("/a.ts" ∈ dependentsOf (addNode gAB nodeA) "/b.ts" ↔
      "/a.ts" ∈ dependentsOf gAB "/b.ts") :=
  (claimC8 gAB nodeA
    (ReachableAdd.add nodeA (ReachableAdd.add nodeB (ReachableAdd.empty "/")))
    (by decide)).1 "/b.ts" "/a.ts"

/-! ## C9: unknown-identity queries -/

/-- Only `a.ts` scanned; `b.ts` is referenced but has no node. -/
def gOnlyA : Graph := addNode (createGraph "/") nodeA

theorem bfsVisit_nil (g : Graph) (v : List String) :
    ∀ fuel, bfsVisit g fuel [] v = v
  | 0 => rfl
  | _ + 1 => rfl

/-- C9 counterexample: `b.ts` was never scanned (`nodes` has no entry), yet
the core getImpact returns an ordinary populated result — here with
`totalAffected = 1`, since the unscanned path has a recorded dependent —
instead of signalling not-found; the MCP get_impact tool formats exactly
this result. -/
theorem claimC9_counterexample :
    mapGet gOnlyA.nodes "/b.ts" = none ∧
      getImpact gOnlyA "/b.ts" =
        ⟨"/b.ts", ["/a.ts"], [], 1, []⟩ :=
  ⟨by decide, by decide⟩

/-- C9 (amended): the HTTP `/impact` route and node lookup do signal
not-found for identities that were never scanned; the core getImpact does
not — and hence the MCP get_impact tool reports a normal result, saying
"affects 0 files (safe to change)" whenever the unknown identity also has
no recorded dependents. -/
theorem claimC9 :
    (∀ (g : Graph) (p : String), mapGet g.nodes p = none →
      impactRoute g p = none ∧ nodeLookup g p = none) ∧
    (∀ (g : Graph) (p : String), dependentsOf g p = [] →
      mcpGetImpactSaysSafe g p = true) := by
  constructor
  · intro g p hnone
    constructor
    · rw [impactRoute, mapHas, hnone]
      rfl
    · rw [nodeLookup]
      exact hnone
  · intro g p hdep
    rw [mcpGetImpactSaysSafe, getImpact]
    dsimp only
    rw [hdep, bfsVisit_nil]
    rfl

/-- Witness for C9 at the concrete store `gOnlyA` and the never-scanned
identity `/u.ts`. -/
theorem claimC9_witness :
    ((impactRoute gOnlyA "/u.ts" = none ∧ nodeLookup gOnlyA "/u.ts" = none) ∧
      mcpGetImpactSaysSafe gOnlyA "/u.ts" = true) :=
  ⟨claimC9.1 gOnlyA "/u.ts" (by decide), claimC9.2 gOnlyA "/u.ts" (by decide)⟩

/-! ## C6: cycle deduplication -/

/-- Invariant of the cycle-detection state: the key list mirrors the
canonical keys of the recorded cycles and has no duplicates. -/
def KeysInv (st : DetectSt) : Prop :=
  st.cycleKeys = st.cycles.map canonicalKey ∧ st.cycleKeys.Nodup

theorem keysInv_inStack (st : DetectSt) (s : List String) (h : KeysInv st) :
    KeysInv { st with inStack := s } := h

theorem keysInv_detectStep (g : Graph) (rec2 : String → DetectSt → DetectSt)
    (path : List String) (node : String)
    (hrec : ∀ dep st, KeysInv st → KeysInv (rec2 dep st)) :
    ∀ (st : DetectSt) (dep : String), KeysInv st →
      KeysInv (detectStep g rec2 path node st dep) := by
  intro st dep h2
  rw [detectStep]
  split
  · exact h2
  · split
    · exact hrec dep st h2
    · have hpush : ∀ cycle : List String, canonicalKey cycle ∉ st.cycleKeys →
          KeysInv
            { st with
              cycleKeys := st.cycleKeys ++ [canonicalKey cycle]
              cycles := st.cycles ++ [cycle] } := by
        intro cycle hnot
        obtain ⟨hk, hnd⟩ := h2
        constructor
        · show st.cycleKeys ++ [canonicalKey cycle]
            = List.map canonicalKey (st.cycles ++ [cycle])
          rw [List.map_append, hk]
          rfl
        · show (st.cycleKeys ++ [canonicalKey cycle]).Nodup
          rw [List.nodup_append]
          refine ⟨hnd, List.nodup_singleton _, ?_⟩
          intro a ha hb
          simp only [List.mem_singleton] at hb
          subst hb
          exact hnot ha
      split
      · split
        · dsimp only
          split
          · exact h2
          · next hnot => exact hpush _ hnot
        · dsimp only
          split
          · exact h2
          · next hnot => exact hpush _ hnot
      · exact h2

theorem keysInv_dfsDetect (g : Graph) :
    ∀ (fuel : Nat) (node : String) (path : List String) (st : DetectSt),
      KeysInv st → KeysInv (dfsDetect g fuel node path st) := by
  intro fuel
  induction fuel with
  | zero => intro node path st h; exact h
  | succ fuel ih =>
    intro node path st h
    rw [dfsDetect]
    exact keysInv_inStack _ _
      (foldl_preserves KeysInv
        (detectStep g (fun dep st => dfsDetect g fuel dep (path ++ [node]) st)
          path node)
        (keysInv_detectStep g _ path node (fun dep st2 h2 => ih dep (path ++ [node]) st2 h2))
        (dependenciesOf g node) _ ⟨h.1, h.2⟩)

/-- C6 counterexample: two reported cycles with the same node set. In the
graph `a.ts -> b.ts -> c.ts -> a.ts` with a self-loop `c.ts -> c.ts`, the
detector reports both `[a, b, c, a]` (the three-cycle, found via
`path.indexOf(dep) = 0`) and `[a, b, c, c]` (the self-loop, whose
`indexOf` is `-1`, so the record is the whole walk `path ++ [node, dep]`
including the prefix `a, b`). Their node sets are both the three-element
set of `a`, `b`, `c`, yet the canonical keys — built from the walked arrays with the repeated
closing node, `a|a|b|c` versus `a|b|c|c` — differ, so deduplication keeps
both. Hence the same cycle node set does produce two reported cycles, and
the canonical key is not the cycle's node set sorted and joined. -/
theorem claimC6_counterexample :
    detectCircularDependencies gSelf =
      [["/a.ts", "/b.ts", "/c.ts", "/a.ts"], ["/a.ts", "/b.ts", "/c.ts", "/c.ts"]] ∧
    (["/a.ts", "/b.ts", "/c.ts", "/a.ts"] : List String).toFinset =
      (["/a.ts", "/b.ts", "/c.ts", "/c.ts"] : List String).toFinset ∧
    canonicalKey ["/a.ts", "/b.ts", "/c.ts", "/a.ts"] ≠
      canonicalKey ["/a.ts", "/b.ts", "/c.ts", "/c.ts"] :=
  ⟨by decide, by decide, by decide⟩

/-- C6 (amended): the two-file mutual import is reported as exactly one
cycle, covering both identities; and in every graph the reported cycles
have pairwise-distinct canonical keys. The canonical key is the sorted and
joined walked array including the repeated closing node (a multiset key,
not the node-set key), so a walk that records the same array under
permutation or re-entry is reported once, but two records over the same
node set with different closing nodes both survive deduplication. -/
theorem claimC6 :
    detectCircularDependencies gCycle = [["/a.ts", "/b.ts", "/a.ts"]] ∧
    ∀ g : Graph, ((detectCircularDependencies g).map canonicalKey).Nodup := by
  constructor
  · decide
  · intro g
    rw [detectCircularDependencies]
    have hfold : KeysInv ((g.nodes.map Prod.fst).foldl (fun st p =>
        if p ∈ st.visited then st
        else dfsDetect g (g.nodes.length + 1) p [] st) ⟨[], [], [], []⟩) := by
      refine foldl_preserves KeysInv _ ?_ _ _ ⟨rfl, List.nodup_nil⟩
      intro a b hb
      split
      · exact hb
      · exact keysInv_dfsDetect g (g.nodes.length + 1) b [] a hb
    rw [← hfold.1]
    exact hfold.2

/-! ## C4: the BFS closure of getImpact -/

/-- One backward step along the dependents relation. -/
def stepRel (g : Graph) (u v : String) : Prop := v ∈ dependentsOf g u

/-- Reachability from some member of `direct` by dependents steps. -/
def ReachesFrom (g : Graph) (direct : List String) (x : String) : Prop :=
  ∃ d ∈ direct, Relation.ReflTransGen (stepRel g) d x

theorem mapGet_mem_values {α : Type} (m : List (String × α)) (k : String) (v : α)
    (h : mapGet m k = some v) : v ∈ m.map Prod.snd := by
  induction m with
  | nil => cases h
  | cons e rest ih =>
    rw [mapGet] at h
    split at h
    · cases h
      exact List.mem_cons_self _ _
    · exact List.mem_cons_of_mem _ (ih h)

theorem mem_depPool (g : Graph) (k y : String) (h : y ∈ dependentsOf g k) :
    y ∈ depPool g := by
  rw [dependentsOf] at h
  cases hm : mapGet g.dependents k with
  | none => rw [hm] at h; cases h
  | some s =>
    rw [hm] at h
    rw [depPool, List.mem_flatten]
    exact ⟨s, mapGet_mem_values g.dependents k s hm, h⟩

/-- The part of the fuel measure charged to unvisited pool members. -/
def bfsRemaining (g : Graph) (visited : List String) : Nat :=
  (((depPool g).dedup.filter (fun x => x ∉ visited)).map
    (fun x => 1 + (dependentsOf g x).length)).sum

/-- The loop measure: every BFS iteration strictly decreases it. -/
def bfsMeasure (g : Graph) (queue visited : List String) : Nat :=
  queue.length + bfsRemaining g visited

theorem sum_filter_extract (f : String → Nat) (a : String) :
    ∀ (L : List String) (v : List String), L.Nodup → a ∈ L → a ∉ v →
      ((L.filter (fun x => x ∉ v)).map f).sum
        = f a + ((L.filter (fun x => x ∉ v ++ [a])).map f).sum := by
  intro L
  induction L with
  | nil => intro v _ ha _; cases ha
  | cons b L2 ih =>
    intro v hnd haL hav
    have hbL2 : b ∉ L2 := (List.nodup_cons.mp hnd).1
    have hndL2 : L2.Nodup := (List.nodup_cons.mp hnd).2
    by_cases hab : a = b
    · subst hab
      have hfa : (fun x => decide (x ∉ v)) a = true := by simpa using hav
      have hcongr : L2.filter (fun x => x ∉ v ++ [a]) = L2.filter (fun x => x ∉ v) := by
        apply List.filter_congr
        intro x hx
        have hxa : x ≠ a := fun h => hbL2 (h ▸ hx)
        simp [List.mem_append, hxa]
      rw [List.filter_cons, if_pos (by simpa using hav), List.filter_cons,
        if_neg (by simp), hcongr]
      simp
    · have haL2 : a ∈ L2 := by
        rcases List.mem_cons.mp haL with h | h
        · exact absurd h hab
        · exact h
      have hbsame : (decide (b ∉ v ++ [a]) : Bool) = decide (b ∉ v) := by
        have hba : b ≠ a := fun h => hab h.symm
        simp [List.mem_append, hba]
      by_cases hbv : b ∈ v
      · rw [List.filter_cons, List.filter_cons, if_neg (by simpa using hbv),
          if_neg (by simp [List.mem_append, hbv])]
        exact ih v hndL2 haL2 hav
      · have hba : ¬ b = a := fun h => hab h.symm
        rw [List.filter_cons, List.filter_cons, if_pos (by simpa using hbv),
          if_pos (by simp [List.mem_append, hbv, hba])]
        simp only [List.map_cons, List.sum_cons]
        rw [ih v hndL2 haL2 hav]
        omega

theorem bfsRemaining_step (g : Graph) (v : List String) (a : String)
    (ha : a ∈ depPool g) (hav : a ∉ v) :
    bfsRemaining g v
      = (1 + (dependentsOf g a).length) + bfsRemaining g (v ++ [a]) := by
  rw [bfsRemaining, bfsRemaining]
  exact sum_filter_extract (fun x => 1 + (dependentsOf g x).length) a
    (depPool g).dedup v (List.nodup_dedup _) (List.mem_dedup.mpr ha) hav

theorem bfsFuel_eq (g : Graph) (queue : List String) :
    bfsFuel g queue = bfsMeasure g queue [] + 1 := by
  rw [bfsFuel, bfsMeasure, bfsRemaining]
  have : (depPool g).dedup.filter (fun x => x ∉ ([] : List String))
      = (depPool g).dedup := by
    apply List.filter_eq_self.mpr
    intro x _
    simp
  rw [this]

/-- The BFS loop computes exactly the set reachable from `direct` by
dependents steps, provided the fuel dominates the loop measure and the
state satisfies the loop invariants (soundness of visited and queue,
frontier closure of visited, coverage of direct). -/
theorem bfs_spec (g : Graph) (direct : List String) :
    ∀ (fuel : Nat) (queue visited : List String),
      bfsMeasure g queue visited < fuel →
      (∀ x ∈ queue, x ∈ depPool g) →
      (∀ x ∈ visited, ReachesFrom g direct x) →
      (∀ x ∈ queue, ReachesFrom g direct x) →
      (∀ x ∈ visited, ∀ y ∈ dependentsOf g x, y ∈ visited ∨ y ∈ queue) →
      (∀ d ∈ direct, d ∈ visited ∨ d ∈ queue) →
      ∀ x, x ∈ bfsVisit g fuel queue visited ↔ ReachesFrom g direct x := by
  intro fuel
  induction fuel with
  | zero =>
    intro queue visited hM
    omega
  | succ fuel ih =>
    intro queue visited hM hpool h1 h2 h3 h4 x
    cases queue with
    | nil =>
      rw [bfsVisit]
      constructor
      · exact h1 x
      · rintro ⟨d, hd, hrtg⟩
        induction hrtg with
        | refl =>
          rcases h4 d hd with h | h
          · exact h
          · cases h
        | tail hab hbc ihh =>
          next b c =>
            rcases h3 b ihh c hbc with h | h
            · exact h
            · cases h
    | cons current rest =>
      rw [bfsVisit]
      by_cases hc : current ∈ visited
      · rw [if_pos hc]
        refine ih rest visited ?_ ?_ h1 ?_ ?_ ?_ x
        · rw [bfsMeasure] at hM ⊢
          rw [List.length_cons] at hM
          omega
        · exact fun y hy => hpool y (List.mem_cons_of_mem _ hy)
        · exact fun y hy => h2 y (List.mem_cons_of_mem _ hy)
        · intro y hy z hz
          rcases h3 y hy z hz with h | h
          · exact Or.inl h
          · rcases List.mem_cons.mp h with h | h
            · exact Or.inl (h ▸ hc)
            · exact Or.inr h
        · intro d hd
          rcases h4 d hd with h | h
          · exact Or.inl h
          · rcases List.mem_cons.mp h with h | h
            · exact Or.inl (h ▸ hc)
            · exact Or.inr h
      · rw [if_neg hc]
        dsimp only
        have hcpool : current ∈ depPool g := hpool current (List.mem_cons_self _ _)
        have hcreach : ReachesFrom g direct current := h2 current (List.mem_cons_self _ _)
        refine ih (rest ++ (dependentsOf g current).filter (fun d => d ∉ visited ++ [current]))
          (visited ++ [current]) ?_ ?_ ?_ ?_ ?_ ?_ x
        · rw [bfsMeasure] at hM ⊢
          rw [List.length_cons] at hM
          rw [bfsRemaining_step g visited current hcpool hc] at hM
          have hlen : (rest ++ (dependentsOf g current).filter
              (fun d => d ∉ visited ++ [current])).length
              ≤ rest.length + (dependentsOf g current).length := by
            rw [List.length_append]
            have := List.length_filter_le (fun d => decide (d ∉ visited ++ [current]))
              (dependentsOf g current)
            omega
          omega
        · intro y hy
          rcases List.mem_append.mp hy with h | h
          · exact hpool y (List.mem_cons_of_mem _ h)
          · exact mem_depPool g current y (List.mem_filter.mp h).1
        · intro y hy
          rcases List.mem_append.mp hy with h | h
          · exact h1 y h
          · rw [List.mem_singleton] at h
            exact h ▸ hcreach
        · intro y hy
          rcases List.mem_append.mp hy with h | h
          · exact h2 y (List.mem_cons_of_mem _ h)
          · obtain ⟨d, hd, hrtg⟩ := hcreach
            exact ⟨d, hd, hrtg.tail (List.mem_filter.mp h).1⟩
        · intro y hy z hz
          rcases List.mem_append.mp hy with h | h
          · rcases h3 y h z hz with h2z | h2z
            · exact Or.inl (List.mem_append.mpr (Or.inl h2z))
            · rcases List.mem_cons.mp h2z with h3z | h3z
              · exact Or.inl (List.mem_append.mpr (Or.inr (by simp [h3z])))
              · exact Or.inr (List.mem_append.mpr (Or.inl h3z))
          · rw [List.mem_singleton] at h
            subst h
            by_cases hz2 : z ∈ visited ++ [y]
            · exact Or.inl hz2
            · refine Or.inr (List.mem_append.mpr (Or.inr ?_))
              exact List.mem_filter.mpr ⟨hz, by simpa using hz2⟩
        · intro d hd
          rcases h4 d hd with h | h
          · exact Or.inl (List.mem_append.mpr (Or.inl h))
          · rcases List.mem_cons.mp h with h | h
            · exact Or.inl (List.mem_append.mpr (Or.inr (by simp [h])))
            · exact Or.inr (List.mem_append.mpr (Or.inl h))

/-- C4 counterexample: in the two-file mutual import, the queried file
`a.ts` itself appears in its own transitiveDependents (the BFS re-reaches
it around the cycle, and only the direct set is filtered out), refuting the
"excluding the queried identity itself" clause. -/
theorem claimC4_counterexample :
    "/a.ts" ∈ (getImpact gCycle "/a.ts").transitiveDependents ∧
      (getImpact gCycle "/a.ts").totalAffected = 2 := by
  refine ⟨by decide, by decide⟩

/-- C4 (amended): directDependents and transitiveDependents are disjoint,
and their union is exactly the set of identities reachable from the queried
identity by one or more backward steps of the dependents relation — a set
that contains the queried identity itself precisely when it lies on a
dependency cycle through its dependents (so it is not excluded; see the
counterexample). -/
theorem claimC4 (g : Graph) (p : String) :
    (∀ x, x ∈ (getImpact g p).transitiveDependents →
      x ∉ (getImpact g p).directDependents) ∧
    (∀ x, (x ∈ (getImpact g p).directDependents ∨
        x ∈ (getImpact g p).transitiveDependents) ↔
      ReachesFrom g (dependentsOf g p) x) := by
  have hvis : ∀ x, x ∈ bfsVisit g (bfsFuel g (dependentsOf g p))
      (dependentsOf g p) [] ↔ ReachesFrom g (dependentsOf g p) x := by
    apply bfs_spec g (dependentsOf g p)
    · rw [bfsFuel_eq]
      omega
    · exact fun y hy => mem_depPool g p y hy
    · intro y hy; cases hy
    · exact fun y hy => ⟨y, hy, Relation.ReflTransGen.refl⟩
    · intro y hy; cases hy
    · exact fun d hd => Or.inr hd
  constructor
  · intro x hx
    rw [getImpact] at hx ⊢
    dsimp only at hx ⊢
    exact (by simpa using (List.mem_filter.mp hx).2)
  · intro x
    rw [getImpact]
    dsimp only
    constructor
    · rintro (h | h)
      · exact ⟨x, h, Relation.ReflTransGen.refl⟩
      · exact (hvis x).mp (List.mem_filter.mp h).1
    · intro hreach
      by_cases hd : x ∈ dependentsOf g p
      · exact Or.inl hd
      · refine Or.inr (List.mem_filter.mpr ⟨(hvis x).mpr hreach, by simpa using hd⟩)

end Whobreaks
